import Mathlib

/-!
Verification development for the FORGE trust-record engine.

The JavaScript core (`src/core/trust-pixel.js`, `src/core/trust-atom.js`,
`src/core/merkle.js`, the witness module and the JSON store of
`src/mcp/server.js`) is shallowly embedded below.  SHA-256 is modelled by an
abstract digest function `H : String → String`; theorems that need
collision-freeness take `Function.Injective H` as a hypothesis, and concrete
witnesses instantiate `H` with the identity function.  JavaScript dynamic
values are modelled by the inductive type `Json`; each `Date.now()` read is
an explicit `Nat` parameter.
-/

namespace Forge

/- ================================================================
   JavaScript string ordering (`Array.prototype.sort` default comparator)
   ================================================================ -/

/-- Lexicographic comparison of character lists by code point, modelling the
default JavaScript string comparison used by `Object.keys(x).sort()`. -/
def chListLe : List Char → List Char → Bool
  | [], _ => true
  | _ :: _, [] => false
  | a :: as, b :: bs => a.toNat < b.toNat || (a.toNat == b.toNat && chListLe as bs)

/-- String comparison on the underlying character data. -/
def strLe (a b : String) : Bool := chListLe a.data b.data

/-- Result of `Object.keys(x).sort()`: the keys sorted ascending under the
default string comparator.  Insertion sort is used as the executable model of
the (implementation-defined) JavaScript sort; only the sorted result matters. -/
def sortStrings (l : List String) : List String :=
  List.insertionSort (fun a b => strLe a b = true) l

/- ================================================================
   JavaScript values and JSON.stringify
   ================================================================ -/

/-- Model of the JavaScript dynamic values the engine hashes: `null` (also
standing for `undefined`), booleans, non-negative numbers, strings, and plain
objects as ordered key/value lists (JavaScript objects remember insertion
order, and `Object.keys` never repeats a key). -/
inductive Json where
  | null : Json
  | bool (b : Bool) : Json
  | num (n : Nat) : Json
  | str (s : String) : Json
  | obj (fields : List (String × Json)) : Json

/-- First-match association-list lookup, modelling JavaScript property access
on objects without duplicate keys. -/
def lookupA {β : Type} (k : String) : List (String × β) → Option β
  | [] => none
  | (k', v) :: t => if k = k' then some v else lookupA k t

/-- Keys of an object's field list, in insertion order (`Object.keys`). -/
def keysOf (fields : List (String × Json)) : List String := fields.map Prod.fst

/-- Array.prototype.join with a separator. -/
def joinWith (sep : String) : List String → String
  | [] => ""
  | [x] => x
  | x :: xs => x ++ sep ++ joinWith sep xs

/-- JSON string-literal escaping (quotation mark and backslash; the claims
never exercise control characters). -/
def escapeChar (c : Char) : String :=
  if c = '"' then "\\\"" else if c = '\\' then "\\\\" else String.singleton c

/-- A JSON string literal: quoted and escaped. -/
def jsonQuote (s : String) : String :=
  "\"" ++ String.join (s.data.map escapeChar) ++ "\""

mutual
/-- Model of `JSON.stringify(value, K)` where `K` is a replacer array of
property names:  per ECMA-262, at EVERY object level only the properties named
in `K` are serialised, in the order of `K` (absent properties are skipped). -/
def stringifyR (K : List String) : Json → String
  | .null => "null"
  | .bool b => if b then "true" else "false"
  | .num n => toString n
  | .str s => jsonQuote s
  | .obj fs =>
      "\x7b" ++
        joinWith ","
          (K.filterMap (fun k =>
            (lookupA k (stringifyREntries K fs)).map
              (fun vs => jsonQuote k ++ ":" ++ vs))) ++
      "\x7d"

/-- Stringifies every value of a field list under replacer `K` (helper giving
the structural recursion for `stringifyR`). -/
def stringifyREntries (K : List String) : List (String × Json) → List (String × String)
  | [] => []
  | (k, v) :: t => (k, stringifyR K v) :: stringifyREntries K t
end

/-- JavaScript `String(x)` coercion for the values above. -/
def jsToString : Json → String
  | .null => "null"
  | .bool b => if b then "true" else "false"
  | .num n => toString n
  | .str s => s
  | .obj _ => "[object Object]"

/-- Embeds `hash(input)` from `src/core/trust-pixel.js`:
`undefined`/`null` become the empty string; objects are serialised by
`JSON.stringify(input, Object.keys(input).sort())`; other values by
`String(input)`; the result is digested by `H` (SHA-256 in the source). -/
def hash (H : String → String) : Json → String
  | .null => H ""
  | .obj fs => H (stringifyR (sortStrings (keysOf fs)) (.obj fs))
  | .bool b => H (jsToString (.bool b))
  | .num n => H (jsToString (.num n))
  | .str s => H (jsToString (.str s))

/-- Canonicalisation of one `hashMany` part: objects are serialised exactly as
in `hash`, everything else via `String(p)`. -/
def canonPart : Json → String
  | .obj fs => stringifyR (sortStrings (keysOf fs)) (.obj fs)
  | j => jsToString j

/-- Embeds `hashMany(...parts)`: canonicalise each part, join with `"|"`,
digest. -/
def hashMany (H : String → String) (parts : List Json) : String :=
  H (joinWith "|" (parts.map canonPart))

/- ================================================================
   TrustAtom  (src/core/trust-atom.js)
   ================================================================ -/

/-- The `_raw` sidecar kept on a freshly created atom (`atom._raw = { who,
action, when }`), never transmitted. -/
structure RawData where
  who : Json
  action : Json
  when : Nat

/-- A TrustAtom.  the JavaScript fields `from` and `to` are Lean keywords,
so they are spelled `from_` and `to_`.  `_raw = none` models the absence of the `_raw` key. -/
structure Atom where
  who : String
  from_ : String
  action : String
  to_ : String
  when : Nat
  prev : List String
  proof : String
  _raw : Option RawData

instance : Inhabited Atom := ⟨⟨"", "", "", "", 0, [], "", none⟩⟩

/-- The ordered parts hashed into an atom's proof:
`hashMany(atom.who, atom.from, atom.action, atom.to, atom.when, ...atom.prev)`. -/
def atomParts (a : Atom) : List Json :=
  [.str a.who, .str a.from_, .str a.action, .str a.to_, .num a.when] ++
    a.prev.map .str

/-- Embeds `createAtom({who, from, action, to, prev})`.  The `Date.now()`
read is the explicit `when` parameter; `prev` is a scalar or an array, and is
normalised to an array. -/
def createAtom (H : String → String) (who from_ action to_ : Json)
    (prev : String ⊕ List String) (when : Nat) : Atom :=
  let prevArr : List String := match prev with | .inl s => [s] | .inr l => l
  let a : Atom :=
    { who := hash H who
      from_ := hash H from_
      action := hash H action
      to_ := hash H to_
      when := when
      prev := prevArr
      proof := ""
      _raw := some ⟨who, action, when⟩ }
  { a with proof := hashMany H (atomParts a) }

/-- Embeds `verifyAtom(atom)`: recompute the proof and compare. -/
def verifyAtom (H : String → String) (a : Atom) : Bool :=
  hashMany H (atomParts a) == a.proof

/-- Structured result of `verifyChain` (and of the other verification
paths): `{ valid, broken_at, reason }`. -/
structure VerifyResult where
  valid : Bool
  broken_at : Int
  reason : Option String
deriving DecidableEq

/-- Loop body of `verifyChain`: `i` is the index of the head of the remaining
list, `prevAtom` the atom at `i - 1` (or `none` at the start). -/
def verifyChainAux (H : String → String) : Nat → Option Atom → List Atom → VerifyResult
  | _, _, [] => ⟨true, -1, none⟩
  | i, prevAtom, a :: rest =>
    if verifyAtom H a = false then ⟨false, i, some "proof_mismatch"⟩
    else match prevAtom with
      | none => verifyChainAux H (i + 1) (some a) rest
      | some p =>
        if (a.prev.contains p.proof) = false then ⟨false, i, some "chain_break"⟩
        else if a.when < p.when then ⟨false, i, some "time_reversal"⟩
        else verifyChainAux H (i + 1) (some a) rest

/-- Embeds `verifyChain(atoms)`: first failure among self-consistency
(`proof_mismatch`), linkage (`chain_break`) and temporal order
(`time_reversal`); an empty chain is valid with `broken_at = -1`. -/
def verifyChain (H : String → String) (atoms : List Atom) : VerifyResult :=
  verifyChainAux H 0 none atoms

/-- Embeds `stripAtom(atom)`: drop the `_raw` key. -/
def stripAtom (a : Atom) : Atom := { a with _raw := none }

/- ================================================================
   Merkle tree  (src/core/merkle.js)
   ================================================================ -/

/-- One pass of the `while` loop in `buildMerkleTree`: hash adjacent pairs,
self-pair a trailing odd node. -/
def pairStep (H : String → String) : List String → List String
  | [] => []
  | [a] => [hash H (.str (a ++ a))]
  | a :: b :: rest => hash H (.str (a ++ b)) :: pairStep H rest

/-- The `layers` array accumulated by `buildMerkleTree`: layer 0 is the
leaves, each next layer is `pairStep` of the previous, until one node is
left. -/
def buildLayers (H : String → String) (cur : List String) : List (List String) :=
  if cur.length ≤ 1 then [cur]
  else cur :: buildLayers H (pairStep H cur)
termination_by cur.length
decreasing_by
  have aux : ∀ l : List String, (pairStep H l).length = (l.length + 1) / 2 := by
    intro l
    induction l using pairStep.induct H with
    | case1 => simp [pairStep]
    | case2 _ => simp [pairStep]
    | case3 x y rest ih => simp only [pairStep, List.length_cons, ih]; omega
  rw [aux]; omega

/-- The final `current[0]` of the `buildMerkleTree` loop. -/
def buildRoot (H : String → String) (cur : List String) : String :=
  match cur with
  | [] => hash H (.str "empty")
  | [a] => a
  | a :: b :: rest => buildRoot H (pairStep H (a :: b :: rest))
termination_by cur.length
decreasing_by
  have aux : ∀ l : List String, (pairStep H l).length = (l.length + 1) / 2 := by
    intro l
    induction l using pairStep.induct H with
    | case1 => simp [pairStep]
    | case2 _ => simp [pairStep]
    | case3 x y rest ih => simp only [pairStep, List.length_cons, ih]; omega
  simp only [aux, List.length_cons]; omega

/-- A Merkle tree: `{ root, layers }`. -/
structure MerkleTree where
  root : String
  layers : List (List String)

/-- Embeds `buildMerkleTree(proofs)`: empty input gives `hash("empty")` with a
single empty layer; one leaf is its own root; otherwise iterate `pairStep`. -/
def buildMerkleTree (H : String → String) (proofs : List String) : MerkleTree :=
  match proofs with
  | [] => ⟨hash H (.str "empty"), [[]]⟩
  | [p] => ⟨p, [[p]]⟩
  | proofs => ⟨buildRoot H proofs, buildLayers H proofs⟩

/-- One `{ hash, direction }` step of a Merkle proof. -/
structure ProofStep where
  hash : String
  direction : String
deriving DecidableEq

/-- The `{ hash, direction }` pair one loop iteration of `getMerkleProof`
emits for the node at `idx` of a layer: the sibling when it exists, the node
itself for an unpaired odd node. -/
def proofStepAt (nodes : List String) (idx : Nat) : ProofStep :=
  let isRight := idx % 2 == 1
  let siblingIdx := if isRight then idx - 1 else idx + 1
  if siblingIdx < nodes.length then
    ⟨nodes.getD siblingIdx "", if isRight then "left" else "right"⟩
  else
    ⟨nodes.getD idx "", if isRight then "left" else "right"⟩

/-- Embeds `getMerkleProof(layers, leafIndex)`: for every non-root layer emit
the sibling (or, for an unpaired odd node, the node itself), then halve the
index. -/
def getMerkleProof : List (List String) → Nat → List ProofStep
  | [], _ => []
  | [_], _ => []
  | nodes :: rest₁ :: rest₂, idx =>
    proofStepAt nodes idx :: getMerkleProof (rest₁ :: rest₂) (idx / 2)

/-- The fold step of `verifyMerkleProof`. -/
def proofFold (H : String → String) (cur : String) (step : ProofStep) : String :=
  if step.direction == "left" then hash H (.str (step.hash ++ cur))
  else hash H (.str (cur ++ step.hash))

/-- Embeds `verifyMerkleProof(leafHash, proof, expectedRoot)`. -/
def verifyMerkleProof (H : String → String) (leafHash : String)
    (proof : List ProofStep) (expectedRoot : String) : Bool :=
  (proof.foldl (proofFold H) leafHash) == expectedRoot

/-- Embeds `treeFromAtoms(atoms)`. -/
def treeFromAtoms (H : String → String) (atoms : List Atom) : MerkleTree :=
  buildMerkleTree H (atoms.map (·.proof))

/-- A time-block.  `layers = none` models the key being deleted by the store;
`atom_range` is assigned by `TrustChain.seal` (the JavaScript `createBlock`
leaves the field absent, modelled by the placeholder `(0, -1)`). -/
structure Block where
  root : String
  layers : Option (List (List String))
  atom_count : Nat
  prev_block : String
  block_hash : String
  created_at : Nat
  atom_range : Int × Int

/-- Embeds `createBlock(atoms, prevBlockHash)` with the `Date.now()` read as
`now`. -/
def createBlock (H : String → String) (atoms : List Atom)
    (prevBlockHash : String) (now : Nat) : Block :=
  let tree := treeFromAtoms H atoms
  { root := tree.root
    layers := some tree.layers
    atom_count := atoms.length
    prev_block := prevBlockHash
    block_hash := hash H (.str (tree.root ++ prevBlockHash ++ toString now))
    created_at := now
    atom_range := (0, -1) }

/- ================================================================
   TrustChain  (src/core/chain.js, second module of trust-pixel.js)
   ================================================================ -/

/-- In-memory chain state: an owner identity, the ordered atoms and the
ordered sealed blocks. -/
structure TrustChain where
  identity : Json
  atoms : List Atom
  blocks : List Block

/-- A fresh chain for an identity (the constructor). -/
def TrustChain.mkChain (identity : Json) : TrustChain :=
  ⟨identity, [], []⟩

/-- Embeds `TrustChain.record({action, from, to})`: the new atom's `prev` is
the last atom's `proof`, or the scalar `"genesis"`. -/
def TrustChain.record (H : String → String) (c : TrustChain)
    (action from_ to_ : Json) (when : Nat) : Atom × TrustChain :=
  let prev : String :=
    match c.atoms.getLast? with
    | some a => a.proof
    | none => "genesis"
  let atom := createAtom H c.identity from_ action to_ (.inl prev) when
  (atom, { c with atoms := c.atoms ++ [atom] })

/-- Embeds `TrustChain._lastSealedIndex()`: `-1` with no blocks, else the
last block's `atom_range[1]`. -/
def TrustChain._lastSealedIndex (c : TrustChain) : Int :=
  match c.blocks.getLast? with
  | none => -1
  | some b => b.atom_range.2

/-- Embeds `TrustChain.seal()` with the `Date.now()` read as `now`: seal the
atoms not yet covered by a block into a new block carrying their
`atom_range`; return `null` (and leave the chain unchanged) when there is
nothing to seal. -/
def TrustChain.seal (H : String → String) (c : TrustChain) (now : Nat) :
    Option Block × TrustChain :=
  if c.atoms.length = 0 then (none, c)
  else
    let prevBlockHash : String :=
      match c.blocks.getLast? with
      | some b => b.block_hash
      | none => "genesis"
    let unsealed := c.atoms.drop (c._lastSealedIndex + 1).toNat
    if unsealed.length = 0 then (none, c)
    else
      let block :=
        { createBlock H unsealed prevBlockHash now with
            atom_range := (c._lastSealedIndex + 1, (c.atoms.length : Int) - 1) }
      (some block, { c with blocks := c.blocks ++ [block] })

/-- Embeds `TrustChain.verify()`. -/
def TrustChain.verify (H : String → String) (c : TrustChain) : VerifyResult :=
  verifyChain H c.atoms

/-- The block-containment test of `TrustChain.proveAtom`:
`globalIndex >= b.atom_range[0] && globalIndex <= b.atom_range[1]`. -/
def blockContains (globalIndex : Int) (b : Block) : Bool :=
  b.atom_range.1 ≤ globalIndex && globalIndex ≤ b.atom_range.2

/-- The result shape of `TrustChain.proveAtom`. -/
structure AtomProof where
  atom : Option Atom
  merkle_proof : List ProofStep
  merkle_root : String
  block_hash : String

/-- Embeds `TrustChain.proveAtom(globalIndex)`: find the containing block,
translate to a local leaf index, build the Merkle proof from the stored
layers.  Returns `none` when no sealed block covers the index. -/
def TrustChain.proveAtom (c : TrustChain) (globalIndex : Nat) : Option AtomProof :=
  match c.blocks.find? (blockContains globalIndex) with
  | none => none
  | some block =>
    let localIndex := ((globalIndex : Int) - block.atom_range.1).toNat
    some
      { atom := c.atoms.get? globalIndex
        merkle_proof := getMerkleProof (block.layers.getD [[]]) localIndex
        merkle_root := block.root
        block_hash := block.block_hash }

/-- Strips a block of its `layers` key, as `TrustChain.export` and
`Store.appendBlock` do. -/
def stripBlockLayers (b : Block) : Block := { b with layers := none }

/-- The portable JSON produced by `TrustChain.export()` and the persisted
shape of `Store._data` (plus `exported_at`). -/
structure ExportData where
  identity_hash : Option String
  atom_count : Nat
  block_count : Nat
  atoms : List Atom
  blocks : List Block
  exported_at : Nat

/-- Embeds `TrustChain.export()` with the `Date.now()` read as `now`: atoms
without `_raw`, blocks without `layers`. -/
def TrustChain.export (c : TrustChain) (now : Nat) : ExportData :=
  { identity_hash := c.atoms.head?.map (·.who)
    atom_count := c.atoms.length
    block_count := c.blocks.length
    atoms := c.atoms.map stripAtom
    blocks := c.blocks.map stripBlockLayers
    exported_at := now }

/- ================================================================
   Cross-chain divergence  (findDivergence)
   ================================================================ -/

/-- The result object of `findDivergence`; optional fields model keys that
are present only on some of the three return paths. -/
structure DivergenceResult where
  diverged : Bool
  at_index : Option Nat
  time_a : Option Nat
  time_b : Option Nat
  action_match : Option Bool
  state_match : Option Bool
  reason : Option String
  length_a : Option Nat
  length_b : Option Nat
deriving DecidableEq

/-- The `diverged: false` result. -/
def noDivergence : DivergenceResult :=
  ⟨false, none, none, none, none, none, none, none, none⟩

/-- Loop of `findDivergence`, comparing position `i` onwards. -/
def findDivergenceAux : Nat → List Atom → List Atom → DivergenceResult
  | _, [], [] => noDivergence
  | i, a :: as, b :: bs =>
    if a.action ≠ b.action ∨ a.from_ ≠ b.from_ ∨ a.to_ ≠ b.to_ then
      { diverged := true
        at_index := some i
        time_a := some a.when
        time_b := some b.when
        action_match := some (a.action == b.action)
        state_match := some (a.from_ == b.from_ && a.to_ == b.to_)
        reason := none, length_a := none, length_b := none }
    else findDivergenceAux (i + 1) as bs
  | i, as, bs =>
    { diverged := true
      at_index := some i
      time_a := none, time_b := none
      action_match := none, state_match := none
      reason := some "length_mismatch"
      length_a := some (i + as.length)
      length_b := some (i + bs.length) }

/-- Embeds `findDivergence(chainA, chainB)`: compare atoms pairwise up to the
shorter length on `(action, from, to)` only; report the first mismatch, else
a `length_mismatch` at `min_len` when the lengths differ, else
`{diverged: false}`. -/
def findDivergence (chainA chainB : TrustChain) : DivergenceResult :=
  findDivergenceAux 0 chainA.atoms chainB.atoms

/- ================================================================
   Witness hierarchy  (src/core/witness.js, third module of trust-pixel.js)
   ================================================================ -/

/-- A stored witness receipt.  The JavaScript receipts are heterogeneous
objects; the fields the verified operations inspect are modelled, with
`Option` for keys that some variants omit. -/
structure Witness where
  type : String
  level : Option Nat
  digest : Option String
  created_at : Nat
deriving DecidableEq

/-- Embeds `saveWitness(merkleRoot, witness)` on the list stored for one
root: the receipt is appended (`existing.push(witness)`). -/
def saveWitness (ws : List Witness) (w : Witness) : List Witness := ws ++ [w]

/-- The effective level `w.level || 1` of a receipt (`undefined` and `0` are
falsy). -/
def effLevel (w : Witness) : Nat :=
  match w.level with
  | none => 1
  | some l => if l = 0 then 1 else l

/-- The fixed per-level label/description table of `witnessLevel`. -/
def witnessLabels : Nat → Option (String × String)
  | 1 => some ("self", "Local only — can be deleted")
  | 2 => some ("bilateral", "Two parties hold hash — one can't deny")
  | 3 => some ("public", "Calendar server attested — independent verification possible")
  | 4 => some ("anchored", "Bitcoin blockchain — computationally undeletable")
  | _ => none

/-- Result of `witnessLevel`. -/
structure WitnessLevelResult where
  level : Nat
  label : Option String
  description : Option String
  witness : Option Witness
deriving DecidableEq

/-- The `maxLevel` / `bestWitness` accumulation loop of `witnessLevel`. -/
def witnessAcc (ws : List Witness) : Nat × Option Witness :=
  ws.foldl
    (fun (acc : Nat × Option Witness) w =>
      if acc.1 < effLevel w then (effLevel w, some w) else acc)
    (1, none)

/-- Embeds `witnessLevel(merkleRoot)` applied to the receipts stored for the
root: level 1 (`self`) with no receipts, else the running maximum of
`w.level || 1` starting from 1, with the receipt that last raised it. -/
def witnessLevel (ws : List Witness) : WitnessLevelResult :=
  if ws.length = 0 then ⟨1, some "self", some "Local only — can be deleted", none⟩
  else
    match witnessLabels (witnessAcc ws).1 with
    | some (lab, desc) => ⟨(witnessAcc ws).1, some lab, some desc, (witnessAcc ws).2⟩
    | none => ⟨(witnessAcc ws).1, none, none, (witnessAcc ws).2⟩

/-- The `bilateral` receipt produced by `createBilateralWitness`. -/
structure BilateralReceipt where
  type : String
  level : Nat
  merkle_root : String
  counterparty : String
  created_at : Nat
  receipt_hash : String
deriving DecidableEq

/-- Embeds `createBilateralWitness(merkleRoot, counterparty)`.  The source
reads the clock twice: `new Date().toISOString()` for `created_at` (modelled
by its millisecond value `tCreated`) and `Date.now()` inside the hashed
string (`tHashed`). -/
def createBilateralWitness (H : String → String) (merkleRoot counterparty : String)
    (tCreated tHashed : Nat) : BilateralReceipt :=
  { type := "bilateral"
    level := 2
    merkle_root := merkleRoot
    counterparty := counterparty
    created_at := tCreated
    receipt_hash :=
      H ("bilateral:" ++ merkleRoot ++ ":" ++ counterparty ++ ":" ++ toString tHashed) }

/-- Validation step of `submitToOTS(hashHex)`: the call throws
`Invalid hash` exactly when `!hashHex || hashHex.length !== 64`; `none`
models `undefined`, and an empty string is falsy.  Returns `true` when
validation passes. -/
def submitToOTSValidates (hashHex : Option String) : Bool :=
  match hashHex with
  | none => false
  | some s => !(s == "") && s.length == 64

/-- Modelled from the spec (§4.6/§7): an input of exactly 64 hexadecimal
characters, the condition the spec says `submit_to_ots` validates. -/
def specHex64 (s : String) : Bool :=
  s.length == 64 && s.data.all (fun c =>
    c.isDigit || ('a' ≤ c && c ≤ 'f') || ('A' ≤ c && c ≤ 'F'))

/-- The receipt-location step of `checkOTSUpgrade(merkleRoot)`:
`witnesses.find(w => w.type === "ots_pending")` — the FIRST stored pending
receipt.  The calendar HTTP queries that follow are outside the embedding. -/
def checkOTSUpgradeFindPending (ws : List Witness) : Option Witness :=
  ws.find? (fun w => w.type == "ots_pending")

/-- Status of `checkOTSUpgrade` as far as the embedded logic decides it:
`no_pending` when no pending receipt is stored, else the upgrade check
proceeds. -/
def checkOTSUpgradeStatus (ws : List Witness) : String :=
  match checkOTSUpgradeFindPending ws with
  | none => "no_pending"
  | some _ => "checking"

/-- Modelled from the spec (§4.6 Upgrade step 1: "Locate the most recent
`ots_pending` receipt"): the last-saved pending receipt. -/
def specMostRecentPending (ws : List Witness) : Option Witness :=
  (ws.filter (fun w => w.type == "ots_pending")).getLast?

/- ================================================================
   Store  (JSON-file store of src/mcp/server.js)
   ================================================================ -/

/-- One plaintext-sidecar entry (`actions.json`). -/
structure ActionEntry where
  plaintext : String
  recorded_at : Nat
deriving DecidableEq

/-- The store: `_data` is `{version, created_at, atoms, blocks, meta}` and
`_actions.entries` is the plaintext sidecar, kept in a separate file. -/
structure Store where
  version : String
  created_at : Nat
  atoms : List Atom
  blocks : List Block
  meta : List (String × String)
  actions : List (String × ActionEntry)

/-- Embeds `Store._empty()` (with an empty sidecar). -/
def Store.empty (now : Nat) : Store :=
  { version := "0.1.0", created_at := now
    atoms := [], blocks := [], meta := [], actions := [] }

/-- Embeds `Store.appendAtom(atom)`: the `_raw` key is deleted before the
atom is persisted; returns the new atom's index. -/
def Store.appendAtom (s : Store) (atom : Atom) : Store × Nat :=
  ({ s with atoms := s.atoms ++ [{ atom with _raw := none }] }, s.atoms.length)

/-- Embeds `Store.appendBlock(block)`: the `layers` key is deleted before the
block is persisted; returns the new block's index. -/
def Store.appendBlock (s : Store) (block : Block) : Store × Nat :=
  ({ s with blocks := s.blocks ++ [{ block with layers := none }] }, s.blocks.length)

/-- Embeds `Store.saveAction(hash, plaintext, metadata)`: record the
plaintext in the sidecar under the action hash (assignment modelled by
a prepend, read through first-match lookup). -/
def Store.saveAction (s : Store) (h : String) (plaintext : String)
    (recorded_at : Nat) : Store :=
  { s with actions := (h, ⟨plaintext, recorded_at⟩) :: s.actions }

/-- Embeds `Store.setMeta(key, value)`. -/
def Store.setMeta (s : Store) (k v : String) : Store :=
  { s with meta := (k, v) :: s.meta }

/-- The object returned by `Store.exportAll()`:
`{ ...this._data, exported_at: Date.now() }` — the sidecar is not part of
`_data`. -/
structure StoreExport where
  version : String
  created_at : Nat
  atoms : List Atom
  blocks : List Block
  meta : List (String × String)
  exported_at : Nat

/-- Embeds `Store.exportAll()` with the `Date.now()` read as `now`. -/
def Store.exportAll (s : Store) (now : Nat) : StoreExport :=
  ⟨s.version, s.created_at, s.atoms, s.blocks, s.meta, now⟩

/-- The store mutations of normal operation (the MCP record/seal flow). -/
inductive StoreOp where
  | appendAtom (a : Atom) : StoreOp
  | appendBlock (b : Block) : StoreOp
  | saveAction (h plaintext : String) (recorded_at : Nat) : StoreOp
  | setMeta (k v : String) : StoreOp

/-- Applies one store operation. -/
def Store.applyOp (s : Store) : StoreOp → Store
  | .appendAtom a => (s.appendAtom a).1
  | .appendBlock b => (s.appendBlock b).1
  | .saveAction h p t => s.saveAction h p t
  | .setMeta k v => s.setMeta k v

/-- Runs a sequence of store operations. -/
def Store.run (s : Store) (ops : List StoreOp) : Store :=
  ops.foldl Store.applyOp s

/- ================================================================
   Chain operation sequences (for the sealing invariants)
   ================================================================ -/

/-- The chain mutations of normal operation: `record` (with its inputs and
its `Date.now()` read) and `seal` (with its `Date.now()` read). -/
inductive ChainOp where
  | record (action from_ to_ : Json) (when : Nat) : ChainOp
  | sealOp (now : Nat) : ChainOp

/-- Applies one chain operation (`sealOp` runs `TrustChain.seal`). -/
def TrustChain.applyOp (H : String → String) (c : TrustChain) : ChainOp → TrustChain
  | .record action from_ to_ when => (c.record H action from_ to_ when).2
  | .sealOp now => (c.seal H now).2

/-- Runs a sequence of chain operations. -/
def TrustChain.run (H : String → String) (c : TrustChain) (ops : List ChainOp) : TrustChain :=
  ops.foldl (TrustChain.applyOp H) c

/- ================================================================
   Spec-side serialisation and deep key permutation (for the hash claims)
   ================================================================ -/

mutual
/-- Modelled from the spec (§3 "A hash of an object is the hash of its JSON
serialisation with keys sorted lexicographically"): the canonical
serialisation in which EVERY object node lists its OWN keys, sorted; used as
the comparison point for the `hash` refinement claim. -/
def sortedStringify : Json → String
  | .null => "null"
  | .bool b => if b then "true" else "false"
  | .num n => toString n
  | .str s => jsonQuote s
  | .obj fs =>
      "\x7b" ++
        joinWith ","
          ((sortStrings (keysOf fs)).filterMap (fun k =>
            (lookupA k (sortedStringifyEntries fs)).map
              (fun vs => jsonQuote k ++ ":" ++ vs))) ++
      "\x7d"

/-- Canonical serialisation of every value of a field list. -/
def sortedStringifyEntries : List (String × Json) → List (String × String)
  | [] => []
  | (k, v) :: t => (k, sortedStringify v) :: sortedStringifyEntries t
end

/-- Executable key-distinctness. -/
def nodupKeys : List String → Bool
  | [] => true
  | k :: t => !(t.contains k) && nodupKeys t

mutual
/-- Well-formedness of a modelled JavaScript value: no object node repeats a
key (JavaScript objects cannot). -/
def wfJson : Json → Bool
  | .null => true
  | .bool _ => true
  | .num _ => true
  | .str _ => true
  | .obj fs => nodupKeys (keysOf fs) && wfEntries fs

/-- Well-formedness of all values of a field list. -/
def wfEntries : List (String × Json) → Bool
  | [] => true
  | (_, v) :: t => wfJson v && wfEntries t
end

mutual
/-- Two values are equal up to permuting the key/value entries of object
nodes, at every nesting depth: atoms must be equal; an object's entries may
first be permuted and then have their values related recursively. -/
inductive DeepPerm : Json → Json → Prop where
  | null : DeepPerm .null .null
  | bool (b : Bool) : DeepPerm (.bool b) (.bool b)
  | num (n : Nat) : DeepPerm (.num n) (.num n)
  | str (s : String) : DeepPerm (.str s) (.str s)
  | obj (fs hs gs : List (String × Json)) :
      fs.Perm hs → DeepPermEntries hs gs → DeepPerm (.obj fs) (.obj gs)

/-- Pointwise `DeepPerm` on entry lists with identical keys in identical
order. -/
inductive DeepPermEntries : List (String × Json) → List (String × Json) → Prop where
  | nil : DeepPermEntries [] []
  | cons (k : String) (v v' : Json) (t t' : List (String × Json)) :
      DeepPerm v v' → DeepPermEntries t t' →
      DeepPermEntries ((k, v) :: t) ((k, v') :: t')
end

/-- A value is flat when it is an atom or an object whose values are all
atoms (no nested objects). -/
def flatJson : Json → Bool
  | .obj fs => fs.all (fun p => match p.2 with | .obj _ => false | _ => true)
  | _ => true

/- ================================================================
   Proof infrastructure
   ================================================================ -/

/-- Equality of the `(action, from, to)` hash triple — the fields
`findDivergence` compares (`when` deliberately excluded). -/
def tripleEq (a b : Atom) : Prop :=
  a.action = b.action ∧ a.from_ = b.from_ ∧ a.to_ = b.to_

instance (a b : Atom) : Decidable (tripleEq a b) := by
  unfold tripleEq
  infer_instance

/-- All three `verifyChain` checks pass for atom `a` with predecessor `p`
(`p = none` at the head of the chain). -/
def stepOK (H : String → String) (p : Option Atom) (a : Atom) : Prop :=
  verifyAtom H a = true ∧
  ∀ q, p = some q → a.prev.contains q.proof = true ∧ ¬ a.when < q.when

/-- Every atom of the list passes the `verifyChain` checks, starting from
predecessor `p`. -/
def chainOKFrom (H : String → String) : Option Atom → List Atom → Prop
  | _, [] => True
  | p, a :: t => stepOK H p a ∧ chainOKFrom H (some a) t

/-- Records a list of `(action, from, to, when)` inputs onto a chain, one
`TrustChain.record` per entry. -/
def recordAll (H : String → String) (c : TrustChain) :
    List (Json × Json × Json × Nat) → TrustChain
  | [] => c
  | (action, from_, to_, when) :: rest =>
      recordAll H (c.record H action from_ to_ when).2 rest

/-- The `when` clock reads of a list of `record` inputs. -/
def whensOf (inputs : List (Json × Json × Json × Nat)) : List Nat :=
  inputs.map (fun q => q.2.2.2)

/-- The last atom of `l`, falling back to `p` when `l` is empty — the
predecessor the `verifyChain` loop carries after traversing `l`. -/
def lastOr (p : Option Atom) (l : List Atom) : Option Atom :=
  match l.getLast? with
  | some x => some x
  | none => p

/-- The block ranges are contiguous inclusive intervals starting at `s`. -/
def rangesOK : Int → List Block → Prop
  | _, [] => True
  | s, b :: bs =>
      b.atom_range.1 = s ∧ b.atom_range.1 ≤ b.atom_range.2 ∧
      rangesOK (b.atom_range.2 + 1) bs

/-- The index one past the last covered atom, walking the block list from
expected start `s`. -/
def expectedNext : Int → List Block → Int
  | s, [] => s
  | _, b :: bs => expectedNext (b.atom_range.2 + 1) bs

/-- The sealing invariant carried across chain operations: block ranges are
contiguous from 0, and the last sealed index stays below the atom count. -/
def sealInv (c : TrustChain) : Prop :=
  rangesOK 0 c.blocks ∧
  expectedNext 0 c.blocks = c._lastSealedIndex + 1 ∧
  c._lastSealedIndex + 1 ≤ (c.atoms.length : Int)

/-- The persisted data of a store holds only hashed material: no atom keeps
its `_raw` sidecar and no block keeps its `layers`. -/
def storeClean (s : Store) : Prop :=
  s.atoms.all (fun a => a._raw.isNone) = true ∧
  s.blocks.all (fun b => b.layers.isNone) = true

/- ================================================================
   Theorems
   ================================================================ -/

/- ---- C8: bilateral receipt hash ---- -/

/-- Claim C8 counterexample: `createBilateralWitness` hashes a fresh
`Date.now()` read, not the clock value stored in `created_at`; when the two
reads straddle a millisecond boundary (here 0 and 1, with the digest
modelled by the identity function), `receipt_hash` is NOT the digest of
`"bilateral:" + root + ":" + counterparty + ":" + created_at_ms`, so the
counterparty cannot recompute it from the receipt's other fields. -/
theorem C8_counterexample :
    (createBilateralWitness id "r" "c" 0 1).receipt_hash ≠
      id ("bilateral:" ++ (createBilateralWitness id "r" "c" 0 1).merkle_root ++ ":" ++
        (createBilateralWitness id "r" "c" 0 1).counterparty ++ ":" ++
        toString (createBilateralWitness id "r" "c" 0 1).created_at) := by
  decide

/-- Claim C8 (amended): PROVIDED the two clock reads of
`createBilateralWitness` return the same millisecond, the receipt's
`receipt_hash` equals the digest of
`"bilateral:" + root + ":" + counterparty + ":" + created_at_ms`, so it is
recomputable from the receipt's other fields. -/
theorem C8_receipt_hash (H : String → String) (root counterparty : String) (t : Nat) :
    (createBilateralWitness H root counterparty t t).receipt_hash =
      H ("bilateral:" ++ (createBilateralWitness H root counterparty t t).merkle_root ++ ":" ++
        (createBilateralWitness H root counterparty t t).counterparty ++ ":" ++
        toString (createBilateralWitness H root counterparty t t).created_at) := rfl

/- ---- C6: OTS submission input validation ---- -/

/-- Claim C6 counterexample: `submitToOTS` checks only the length of its
input, not that the characters are hexadecimal; a string of 64 `'z'`
characters is not hexadecimal yet passes the validation step, so the
validation does not fail "exactly when the input is not 64 hex characters". -/
theorem C6_counterexample :
    submitToOTSValidates (some (String.mk (List.replicate 64 'z'))) = true ∧
      specHex64 (String.mk (List.replicate 64 'z')) = false := by
  constructor <;> decide

/-- Claim C6 (amended): `submit_to_ots` fails with `InvalidHash` exactly when
the input is absent, empty, or not of length 64 — equivalently, validation
passes exactly for present inputs of 64 characters (hexadecimal or not); in
particular every 64-hex-character input passes the validation step. -/
theorem C6_validation :
    (∀ h : Option String,
      submitToOTSValidates h = true ↔ ∃ s, h = some s ∧ s.length = 64) ∧
    (∀ s : String, specHex64 s = true → submitToOTSValidates (some s) = true) := by
  have len_ne : ∀ s : String, s.length = 64 → s ≠ "" := by
    intro s hl he
    rw [he] at hl
    simp [String.length] at hl
  constructor
  · intro h
    cases h with
    | none => simp [submitToOTSValidates]
    | some s =>
      simp only [submitToOTSValidates, Bool.and_eq_true, Bool.not_eq_true',
        beq_eq_false_iff_ne, ne_eq, beq_iff_eq]
      constructor
      · rintro ⟨-, hl⟩
        exact ⟨s, rfl, hl⟩
      · rintro ⟨s', hs', hl⟩
        cases hs'
        exact ⟨len_ne s hl, hl⟩
  · intro s hs
    simp only [specHex64, Bool.and_eq_true, beq_iff_eq] at hs
    simp only [submitToOTSValidates, Bool.and_eq_true, Bool.not_eq_true',
      beq_eq_false_iff_ne, ne_eq, beq_iff_eq]
    exact ⟨len_ne s hs.1, hs.1⟩

/-- Witness for C6: a concrete 64-hex-character string passes validation. -/
theorem C6_validation_witness :
    specHex64 (String.mk (List.replicate 64 'a')) = true ∧
      submitToOTSValidates (some (String.mk (List.replicate 64 'a'))) = true :=
  ⟨by decide, C6_validation.2 (String.mk (List.replicate 64 'a')) (by decide)⟩

/- ---- C7: locating the pending OTS receipt ---- -/

/-- Claim C7 counterexample: with two `ots_pending` receipts saved for the
same root (`saveWitness` appends, so the most recent one is last),
`checkOTSUpgrade` locates the FIRST (oldest) one via `witnesses.find`, not
the most recent one. -/
theorem C7_counterexample :
    checkOTSUpgradeFindPending
        (saveWitness (saveWitness [] ⟨"ots_pending", some 3, some "d1", 0⟩)
          ⟨"ots_pending", some 3, some "d2", 5⟩) =
      some ⟨"ots_pending", some 3, some "d1", 0⟩ ∧
    specMostRecentPending
        (saveWitness (saveWitness [] ⟨"ots_pending", some 3, some "d1", 0⟩)
          ⟨"ots_pending", some 3, some "d2", 5⟩) =
      some ⟨"ots_pending", some 3, some "d2", 5⟩ ∧
    checkOTSUpgradeFindPending
        (saveWitness (saveWitness [] ⟨"ots_pending", some 3, some "d1", 0⟩)
          ⟨"ots_pending", some 3, some "d2", 5⟩) ≠
      specMostRecentPending
        (saveWitness (saveWitness [] ⟨"ots_pending", some 3, some "d1", 0⟩)
          ⟨"ots_pending", some 3, some "d2", 5⟩) := by
  refine ⟨by decide, by decide, by decide⟩

/-- Claim C7 (amended): `check_ots_upgrade` locates the FIRST-saved (oldest)
`ots_pending` receipt stored for the root — when several exist, the oldest
one's data is used — and returns status `no_pending` exactly when no
`ots_pending` receipt exists for the root. -/
theorem C7_find_pending :
    (∀ ws : List Witness,
      checkOTSUpgradeStatus ws = "no_pending" ↔ ∀ w ∈ ws, w.type ≠ "ots_pending") ∧
    (∀ (ws : List Witness) (w : Witness), checkOTSUpgradeFindPending ws = some w →
      w.type = "ots_pending" ∧
        ∃ pre suf, ws = pre ++ w :: suf ∧ ∀ x ∈ pre, x.type ≠ "ots_pending") := by
  constructor
  · intro ws
    have hstat : checkOTSUpgradeStatus ws = "no_pending" ↔
        checkOTSUpgradeFindPending ws = none := by
      unfold checkOTSUpgradeStatus
      cases h : checkOTSUpgradeFindPending ws <;> simp [h]
    rw [hstat]
    unfold checkOTSUpgradeFindPending
    rw [List.find?_eq_none]
    constructor
    · intro h w hw
      have := h w hw
      simpa using this
    · intro h w hw
      simpa using h w hw
  · intro ws
    induction ws with
    | nil => intro w h; simp [checkOTSUpgradeFindPending] at h
    | cons x t ih =>
      intro w h
      unfold checkOTSUpgradeFindPending at h
      rw [List.find?_cons] at h
      cases hx : x.type == "ots_pending" with
      | true =>
        rw [hx] at h
        cases h
        exact ⟨by simpa using hx, [], t, rfl, by simp⟩
      | false =>
        rw [hx] at h
        obtain ⟨hw, pre, suf, heq, hpre⟩ := ih w h
        refine ⟨hw, x :: pre, suf, by simp [heq], ?_⟩
        intro y hy
        rcases List.mem_cons.mp hy with rfl | hy'
        · simpa using hx
        · exact hpre y hy'

/-- Witness for C7: on a concrete list whose only pending receipt sits after
a bilateral one, the located receipt is that pending receipt, first-saved
among the pending ones. -/
theorem C7_find_pending_witness :
    checkOTSUpgradeFindPending
        [⟨"bilateral", some 2, none, 0⟩, ⟨"ots_pending", some 3, some "d1", 1⟩] =
      some ⟨"ots_pending", some 3, some "d1", 1⟩ ∧
    (⟨"ots_pending", some 3, some "d1", 1⟩ : Witness).type = "ots_pending" ∧
    ∃ pre suf,
      [(⟨"bilateral", some 2, none, 0⟩ : Witness), ⟨"ots_pending", some 3, some "d1", 1⟩] =
        pre ++ (⟨"ots_pending", some 3, some "d1", 1⟩ : Witness) :: suf ∧
      ∀ x ∈ pre, x.type ≠ "ots_pending" :=
  ⟨by decide,
    (C7_find_pending.2
      [⟨"bilateral", some 2, none, 0⟩, ⟨"ots_pending", some 3, some "d1", 1⟩]
      ⟨"ots_pending", some 3, some "d1", 1⟩ (by decide)).1,
    (C7_find_pending.2
      [⟨"bilateral", some 2, none, 0⟩, ⟨"ots_pending", some 3, some "d1", 1⟩]
      ⟨"ots_pending", some 3, some "d1", 1⟩ (by decide)).2⟩

/- ---- C5: witness level is the running maximum ---- -/

/-- The pair-valued fold of `witnessLevel` computes the plain running maximum
of the effective levels in its first component. -/
theorem witnessFold_fst (ws : List Witness) :
    ∀ (m : Nat) (bw : Option Witness),
      (ws.foldl
        (fun (acc : Nat × Option Witness) w =>
          if acc.1 < effLevel w then (effLevel w, some w) else acc)
        (m, bw)).1 =
      ws.foldl (fun m w => max m (effLevel w)) m := by
  induction ws with
  | nil => intro m bw; rfl
  | cons w t ih =>
    intro m bw
    simp only [List.foldl_cons]
    by_cases h : m < effLevel w
    · rw [if_pos h, ih, Nat.max_eq_right (Nat.le_of_lt h)]
    · rw [if_neg h, ih, Nat.max_eq_left (Nat.le_of_not_lt h)]

/-- Claim C5: `witness_level` reports the maximum effective level
(`w.level || 1`) over the stored receipts, defaulting to 1 when none exist;
consequently `save_witness` (an append) can only preserve or raise the
reported level, never lower it. -/
theorem C5_witness_level :
    (∀ ws : List Witness,
      (witnessLevel ws).level = ws.foldl (fun m w => max m (effLevel w)) 1) ∧
    (∀ (ws : List Witness) (w : Witness),
      (witnessLevel (saveWitness ws w)).level = max (witnessLevel ws).level (effLevel w)) ∧
    (∀ (ws : List Witness) (w : Witness),
      (witnessLevel ws).level ≤ (witnessLevel (saveWitness ws w)).level) := by
  have part1 : ∀ ws : List Witness,
      (witnessLevel ws).level = ws.foldl (fun m w => max m (effLevel w)) 1 := by
    intro ws
    cases ws with
    | nil => rfl
    | cons w t =>
      have hfst : (witnessAcc (w :: t)).1 =
          (w :: t).foldl (fun m w => max m (effLevel w)) 1 :=
        witnessFold_fst (w :: t) 1 none
      unfold witnessLevel
      rw [if_neg (by simp)]
      cases hlab : witnessLabels (witnessAcc (w :: t)).1 with
      | none => simp only [hlab]; exact hfst
      | some p => cases p with | mk lab desc => simp only [hlab]; exact hfst
  refine ⟨part1, ?_, ?_⟩
  · intro ws w
    rw [part1, part1]
    unfold saveWitness
    rw [List.foldl_append]
    rfl
  · intro ws w
    have h2 : (witnessLevel (saveWitness ws w)).level =
        max (witnessLevel ws).level (effLevel w) := by
      rw [part1, part1]
      unfold saveWitness
      rw [List.foldl_append]
      rfl
    rw [h2]
    exact Nat.le_max_left _ _

/- ---- C9: exports carry only hashed data ---- -/

/-- Cleanliness of the persisted store data is preserved by every store
operation of normal use. -/
theorem storeClean_applyOp (s : Store) (op : StoreOp) (h : storeClean s) :
    storeClean (s.applyOp op) := by
  obtain ⟨ha, hb⟩ := h
  cases op with
  | appendAtom a =>
    refine ⟨?_, hb⟩
    simp only [Store.applyOp, Store.appendAtom, List.all_append, Bool.and_eq_true]
    exact ⟨ha, by simp⟩
  | appendBlock b =>
    refine ⟨ha, ?_⟩
    simp only [Store.applyOp, Store.appendBlock, List.all_append, Bool.and_eq_true]
    exact ⟨hb, by simp⟩
  | saveAction h p t => exact ⟨ha, hb⟩
  | setMeta k v => exact ⟨ha, hb⟩

/-- Cleanliness is preserved by any sequence of store operations. -/
theorem storeClean_run (ops : List StoreOp) :
    ∀ s : Store, storeClean s → storeClean (s.run ops) := by
  induction ops with
  | nil => intro s h; exact h
  | cons op rest ih =>
    intro s h
    exact ih (s.applyOp op) (storeClean_applyOp s op h)

/-- Claim C9: exports contain only hashed data — `TrustChain.export` strips
`_raw` from every atom and `layers` from every block for ANY chain state; a
store reachable by normal operation exports only stripped atoms and blocks;
and `Store.exportAll` is a function of `_data` alone, so two stores that
differ only in their plaintext-sidecar entries produce identical exports
(same `exported_at` read). -/
theorem C9_export_hashed_only :
    (∀ (c : TrustChain) (now : Nat),
      (c.export now).atoms.all (fun a => a._raw.isNone) = true ∧
      (c.export now).blocks.all (fun b => b.layers.isNone) = true) ∧
    (∀ (t₀ : Nat) (ops : List StoreOp) (t₁ : Nat),
      (((Store.empty t₀).run ops).exportAll t₁).atoms.all (fun a => a._raw.isNone) = true ∧
      (((Store.empty t₀).run ops).exportAll t₁).blocks.all (fun b => b.layers.isNone) = true) ∧
    (∀ (s₁ s₂ : Store) (t : Nat),
      s₁.version = s₂.version → s₁.created_at = s₂.created_at → s₁.atoms = s₂.atoms →
      s₁.blocks = s₂.blocks → s₁.meta = s₂.meta →
      s₁.exportAll t = s₂.exportAll t) := by
  refine ⟨?_, ?_, ?_⟩
  · intro c now
    constructor
    · simp [TrustChain.export, List.all_map, Function.comp, stripAtom]
    · simp [TrustChain.export, List.all_map, Function.comp, stripBlockLayers]
  · intro t₀ ops t₁
    have h := storeClean_run ops (Store.empty t₀) ⟨rfl, rfl⟩
    exact ⟨h.1, h.2⟩
  · intro s₁ s₂ t h₁ h₂ h₃ h₄ h₅
    simp [Store.exportAll, h₁, h₂, h₃, h₄, h₅]

/-- Witness for C9: two concrete stores — one with a plaintext sidecar entry,
one without — produce identical exports. -/
theorem C9_export_hashed_only_witness :
    ((Store.empty 0).saveAction "h" "apt update" 3).exportAll 7 =
      (Store.empty 0).exportAll 7 :=
  C9_export_hashed_only.2.2 ((Store.empty 0).saveAction "h" "apt update" 3)
    (Store.empty 0) 7 rfl rfl rfl rfl rfl

/- ---- C3: cross-chain divergence detection ---- -/

/-- The comparison of the `findDivergence` loop fires exactly when the
`(action, from, to)` triple differs. -/
theorem divergence_cond_iff (a b : Atom) :
    (a.action ≠ b.action ∨ a.from_ ≠ b.from_ ∨ a.to_ ≠ b.to_) ↔ ¬ tripleEq a b := by
  unfold tripleEq
  tauto

/-- On two lists agreeing on their `(action, from, to)` triples up to a first
mismatch, the `findDivergence` loop reports the mismatch position offset by
the starting index. -/
theorem findDivergenceAux_mismatch (pre₁ pre₂ : List Atom)
    (hpre : List.Forall₂ tripleEq pre₁ pre₂) :
    ∀ (i : Nat) (a b : Atom) (s₁ s₂ : List Atom), ¬ tripleEq a b →
      findDivergenceAux i (pre₁ ++ a :: s₁) (pre₂ ++ b :: s₂) =
        { diverged := true
          at_index := some (i + pre₁.length)
          time_a := some a.when
          time_b := some b.when
          action_match := some (a.action == b.action)
          state_match := some (a.from_ == b.from_ && a.to_ == b.to_)
          reason := none, length_a := none, length_b := none } := by
  induction hpre with
  | nil =>
    intro i a b s₁ s₂ hne
    simp only [List.nil_append, findDivergenceAux,
      if_pos ((divergence_cond_iff a b).mpr hne), List.length_nil, Nat.add_zero]
  | @cons x y l₁ l₂ hxy hrest ih =>
    intro i a b s₁ s₂ hne
    simp only [List.cons_append, findDivergenceAux]
    rw [if_neg (fun hc => (divergence_cond_iff x y).mp hc hxy)]
    rw [List.length_cons]
    rw [show i + (l₁.length + 1) = (i + 1) + l₁.length from by omega]
    exact ih (i + 1) a b s₁ s₂ hne

/-- On two lists whose `(action, from, to)` triples agree pointwise, the
`findDivergence` loop reports no divergence. -/
theorem findDivergenceAux_all_eq (l₁ l₂ : List Atom)
    (h : List.Forall₂ tripleEq l₁ l₂) :
    ∀ i, findDivergenceAux i l₁ l₂ = noDivergence := by
  induction h with
  | nil => intro i; rfl
  | @cons x y l₁ l₂ hxy hrest ih =>
    intro i
    simp only [findDivergenceAux]
    rw [if_neg (fun hc => (divergence_cond_iff x y).mp hc hxy)]
    exact ih (i + 1)

/-- Claim C3: `find_divergence(A, B)` reports `diverged = true` with
`at_index` equal to the first position at which the `(action, from, to)`
triples differ, together with `action_match` and `state_match`; the `when`
timestamps do not participate, so chains whose atoms differ only in `when`
are not diverged; and `find_divergence(A, A)` reports no divergence. -/
theorem C3_divergence :
    (∀ (A B : TrustChain) (pre₁ pre₂ : List Atom) (a b : Atom) (s₁ s₂ : List Atom),
      A.atoms = pre₁ ++ a :: s₁ → B.atoms = pre₂ ++ b :: s₂ →
      List.Forall₂ tripleEq pre₁ pre₂ → ¬ tripleEq a b →
      findDivergence A B =
        { diverged := true
          at_index := some pre₁.length
          time_a := some a.when
          time_b := some b.when
          action_match := some (a.action == b.action)
          state_match := some (a.from_ == b.from_ && a.to_ == b.to_)
          reason := none, length_a := none, length_b := none }) ∧
    (∀ A B : TrustChain, List.Forall₂ tripleEq A.atoms B.atoms →
      findDivergence A B = noDivergence) ∧
    (∀ A : TrustChain, findDivergence A A = noDivergence) := by
  refine ⟨?_, ?_, ?_⟩
  · intro A B pre₁ pre₂ a b s₁ s₂ hA hB hpre hne
    unfold findDivergence
    rw [hA, hB, findDivergenceAux_mismatch pre₁ pre₂ hpre 0 a b s₁ s₂ hne]
    simp
  · intro A B h
    exact findDivergenceAux_all_eq A.atoms B.atoms h 0
  · intro A
    exact findDivergenceAux_all_eq A.atoms A.atoms
      (List.forall₂_same.mpr (fun a _ => ⟨rfl, rfl, rfl⟩)) 0

/-- Witness for C3: two concrete one-atom chains with different action hashes
diverge at index 0; two that differ only in `when` do not diverge; a chain
does not diverge from itself. -/
theorem C3_divergence_witness :
    findDivergence ⟨.str "id", [⟨"w", "f", "a1", "t", 5, ["genesis"], "p1", none⟩], []⟩
        ⟨.str "id", [⟨"w", "f", "a2", "t", 9, ["genesis"], "p2", none⟩], []⟩ =
      { diverged := true
        at_index := some 0
        time_a := some 5
        time_b := some 9
        action_match := some false
        state_match := some true
        reason := none, length_a := none, length_b := none } ∧
    findDivergence ⟨.str "id", [⟨"w", "f", "a1", "t", 5, ["genesis"], "p1", none⟩], []⟩
        ⟨.str "id", [⟨"w", "f", "a1", "t", 99, ["genesis"], "p1", none⟩], []⟩ =
      noDivergence ∧
    findDivergence ⟨.str "id", [⟨"w", "f", "a1", "t", 5, ["genesis"], "p1", none⟩], []⟩
        ⟨.str "id", [⟨"w", "f", "a1", "t", 5, ["genesis"], "p1", none⟩], []⟩ =
      noDivergence := by
  refine ⟨?_, ?_, ?_⟩
  · have h := C3_divergence.1
      ⟨.str "id", [⟨"w", "f", "a1", "t", 5, ["genesis"], "p1", none⟩], []⟩
      ⟨.str "id", [⟨"w", "f", "a2", "t", 9, ["genesis"], "p2", none⟩], []⟩
      [] [] ⟨"w", "f", "a1", "t", 5, ["genesis"], "p1", none⟩
      ⟨"w", "f", "a2", "t", 9, ["genesis"], "p2", none⟩ [] []
      rfl rfl List.Forall₂.nil (by decide)
    rw [h]
    decide
  · exact C3_divergence.2.1
      ⟨.str "id", [⟨"w", "f", "a1", "t", 5, ["genesis"], "p1", none⟩], []⟩
      ⟨.str "id", [⟨"w", "f", "a1", "t", 99, ["genesis"], "p1", none⟩], []⟩
      (List.Forall₂.cons (by decide) List.Forall₂.nil)
  · exact C3_divergence.2.2
      ⟨.str "id", [⟨"w", "f", "a1", "t", 5, ["genesis"], "p1", none⟩], []⟩

/- ---- C1: recorded chains verify; mutating an action hash breaks them ---- -/

/-- Left cancellation of string concatenation. -/
theorem strCancelLeft (s a b : String) (h : s ++ a = s ++ b) : a = b := by
  have hd := congrArg String.data h
  simp only [String.data_append] at hd
  exact String.ext (List.append_cancel_left hd)

/-- Right cancellation of string concatenation. -/
theorem strCancelRight (a b s : String) (h : a ++ s = b ++ s) : a = b := by
  have hd := congrArg String.data h
  simp only [String.data_append] at hd
  exact String.ext (List.append_cancel_right hd)

/-- Canonicalisation of a string part is the string itself. -/
theorem canonPart_str (s : String) : canonPart (.str s) = s := rfl

/-- A freshly created atom is self-consistent: its stored proof is exactly
the recomputed one. -/
theorem verifyAtom_createAtom (H : String → String) (who from_ action to_ : Json)
    (prev : String ⊕ List String) (when : Nat) :
    verifyAtom H (createAtom H who from_ action to_ prev when) = true := by
  simp [verifyAtom, createAtom, atomParts]

/-- Mutating the `action` hash of a self-consistent atom to a distinct hash
breaks its self-consistency, assuming the digest function is injective. -/
theorem verifyAtom_action_mutation (H : String → String)
    (hinj : Function.Injective H) (a : Atom) (h' : String)
    (hv : verifyAtom H a = true) (hne : h' ≠ a.action) :
    verifyAtom H { a with action := h' } = false := by
  rw [Bool.eq_false_iff]
  intro hcontra
  apply hne
  have h₁ : hashMany H (atomParts a) = a.proof := by
    simpa [verifyAtom] using hv
  have h₂ : hashMany H (atomParts { a with action := h' }) = a.proof := by
    simpa [verifyAtom] using hcontra
  have hH : H (joinWith "|" ((atomParts { a with action := h' }).map canonPart)) =
      H (joinWith "|" ((atomParts a).map canonPart)) := by
    simpa [hashMany] using h₂.trans h₁.symm
  have hjoin := hinj hH
  simp only [atomParts, List.map_append, List.map_cons, List.map_nil, List.map_map,
    canonPart_str, List.cons_append, List.nil_append] at hjoin
  rw [show (canonPart ∘ Json.str) = fun s : String => s from funext (fun s => rfl),
    List.map_id'] at hjoin
  simp only [joinWith] at hjoin
  have e1 := strCancelLeft _ _ _ hjoin
  have e2 := strCancelLeft _ _ _ e1
  have e3 := strCancelRight _ _ _ e2
  exact strCancelRight h' a.action "|" e3

/-- An atom that passes every check is stepped over by the `verifyChain`
loop, which carries it forward as the new predecessor. -/
theorem verifyChainAux_step (H : String → String) (i : Nat) (p : Option Atom)
    (x : Atom) (l : List Atom) (hx : stepOK H p x) :
    verifyChainAux H i p (x :: l) = verifyChainAux H (i + 1) (some x) l := by
  obtain ⟨hvx, hlink⟩ := hx
  simp only [verifyChainAux]
  rw [if_neg (by simp [hvx])]
  cases p with
  | none => rfl
  | some q =>
    obtain ⟨hc, hw⟩ := hlink q rfl
    dsimp only
    rw [if_neg (by rw [hc]; simp), if_neg hw]

/-- Traversing a list on which every `verifyChain` check passes reports a
valid chain. -/
theorem verifyChainAux_ok (H : String → String) :
    ∀ (l : List Atom) (i : Nat) (p : Option Atom), chainOKFrom H p l →
      verifyChainAux H i p l = ⟨true, -1, none⟩ := by
  intro l
  induction l with
  | nil => intro i p _; rfl
  | cons a t ih =>
    intro i p h
    rw [verifyChainAux_step H i p a t h.1]
    exact ih (i + 1) (some a) h.2

/-- Traversing a passing prefix and then an atom whose recomputed proof
mismatches reports the break exactly at that atom's index. -/
theorem verifyChainAux_fail (H : String → String) :
    ∀ (pre : List Atom) (i : Nat) (p : Option Atom) (a : Atom) (suf : List Atom),
      chainOKFrom H p pre → verifyAtom H a = false →
      verifyChainAux H i p (pre ++ a :: suf) =
        ⟨false, (i : Int) + pre.length, some "proof_mismatch"⟩ := by
  intro pre
  induction pre with
  | nil =>
    intro i p a suf _ hfail
    simp [verifyChainAux, hfail]
  | cons x t ih =>
    intro i p a suf h hfail
    rw [List.cons_append, verifyChainAux_step H i p x _ h.1,
      ih (i + 1) (some x) a suf h.2 hfail]
    have harith : ((i + 1 : Nat) : Int) + t.length = (i : Int) + (x :: t).length := by
      simp only [List.length_cons]
      push_cast
      omega
    rw [harith]

/-- `lastOr` with no fallback is `getLast?`. -/
theorem lastOr_none (l : List Atom) : lastOr none l = l.getLast? := by
  unfold lastOr
  cases h : l.getLast? <;> rfl

/-- `lastOr` commutes with uncons. -/
theorem lastOr_cons (p : Option Atom) (x : Atom) (t : List Atom) :
    lastOr p (x :: t) = lastOr (some x) t := by
  cases t with
  | nil => rfl
  | cons y t' =>
    unfold lastOr
    rw [List.getLast?_cons_cons]
    cases h : (y :: t').getLast? with
    | none => exact absurd h (by simp)
    | some z => rfl

/-- Appending one atom preserves `chainOKFrom` when the new atom passes the
checks against the current last atom. -/
theorem chainOKFrom_snoc (H : String → String) :
    ∀ (l : List Atom) (p : Option Atom) (a : Atom),
      chainOKFrom H p l → stepOK H (lastOr p l) a → chainOKFrom H p (l ++ [a]) := by
  intro l
  induction l with
  | nil => intro p a _ hstep; exact ⟨hstep, trivial⟩
  | cons x t ih =>
    intro p a h hstep
    obtain ⟨hx, ht⟩ := h
    exact ⟨hx, ih (some x) a ht (by rwa [lastOr_cons] at hstep)⟩

/-- `chainOKFrom` splits across an append. -/
theorem chainOKFrom_append (H : String → String) :
    ∀ (l₁ l₂ : List Atom) (p : Option Atom), chainOKFrom H p (l₁ ++ l₂) →
      chainOKFrom H p l₁ ∧ chainOKFrom H (lastOr p l₁) l₂ := by
  intro l₁
  induction l₁ with
  | nil => intro l₂ p h; exact ⟨trivial, h⟩
  | cons x t ih =>
    intro l₂ p h
    obtain ⟨hx, ht⟩ := h
    obtain ⟨h₁, h₂⟩ := ih l₂ (some x) ht
    exact ⟨⟨hx, h₁⟩, by rwa [lastOr_cons]⟩

/-- Recording a batch of inputs with non-decreasing clock reads onto a chain
whose atoms already pass every check yields a chain whose atoms all pass
every check. -/
theorem recordAll_chainOK (H : String → String) :
    ∀ (inputs : List (Json × Json × Json × Nat)) (c : TrustChain),
      chainOKFrom H none c.atoms →
      List.Chain' (· ≤ ·) (c.atoms.map (·.when) ++ whensOf inputs) →
      chainOKFrom H none (recordAll H c inputs).atoms := by
  intro inputs
  induction inputs with
  | nil => intro c hok _; exact hok
  | cons q rest ih =>
    obtain ⟨action, from_, to_, w⟩ := q
    intro c hok hchain
    simp only [recordAll]
    apply ih
    · -- the recorded chain still passes every check
      simp only [TrustChain.record]
      apply chainOKFrom_snoc H c.atoms none _ hok
      constructor
      · exact verifyAtom_createAtom H c.identity from_ action to_ _ w
      · intro qa hqa
        have hlast : c.atoms.getLast? = some qa := by
          rwa [lastOr_none] at hqa
        constructor
        · simp [createAtom, hlast, List.contains_cons]
        · -- temporal order: qa.when ≤ w from the chain of clock reads
          have hsplit := (List.chain'_append.mp hchain).2.2
          have hqw : qa.when ≤ w := by
            apply hsplit qa.when
            · rw [List.getLast?_map, hlast]
              rfl
            · simp [whensOf]
          simp [createAtom]
          omega
    · -- the remaining clock reads still form a chain
      simp only [TrustChain.record]
      have : (c.atoms ++ [createAtom H c.identity from_ action to_
          (.inl (match c.atoms.getLast? with
                 | some a => a.proof
                 | none => "genesis")) w]).map (·.when) ++ whensOf rest =
          c.atoms.map (·.when) ++ whensOf ((action, from_, to_, w) :: rest) := by
        simp [whensOf, createAtom]
      rw [this]
      exact hchain

/-- Claim C1: a chain produced by repeated `record` (with non-decreasing
clock reads) verifies as valid; replacing any single atom's `action` hash
with a distinct hash makes `verifyChain` return `valid = false` with
`broken_at` equal to the index of the mutated atom (its digest no longer
matches the stored proof, assuming the digest function is injective). -/
theorem C1_record_verify (H : String → String) (hinj : Function.Injective H)
    (identity : Json) (inputs : List (Json × Json × Json × Nat))
    (hmono : List.Chain' (· ≤ ·) (whensOf inputs)) :
    (verifyChain H (recordAll H (TrustChain.mkChain identity) inputs).atoms =
      ⟨true, -1, none⟩) ∧
    (∀ (pre : List Atom) (a : Atom) (suf : List Atom) (h' : String),
      (recordAll H (TrustChain.mkChain identity) inputs).atoms = pre ++ a :: suf →
      h' ≠ a.action →
      (verifyChain H (pre ++ { a with action := h' } :: suf)).valid = false ∧
      (verifyChain H (pre ++ { a with action := h' } :: suf)).broken_at = pre.length) := by
  have hok : chainOKFrom H none (recordAll H (TrustChain.mkChain identity) inputs).atoms := by
    apply recordAll_chainOK H inputs (TrustChain.mkChain identity) trivial
    simpa [TrustChain.mkChain] using hmono
  constructor
  · exact verifyChainAux_ok H _ 0 none hok
  · intro pre a suf h' heq hne
    rw [heq] at hok
    obtain ⟨hpre, hrest⟩ := chainOKFrom_append H pre (a :: suf) none hok
    have hva : verifyAtom H a = true := hrest.1.1
    have hfail := verifyAtom_action_mutation H hinj a h' hva hne
    have := verifyChainAux_fail H pre 0 none { a with action := h' } suf hpre hfail
    unfold verifyChain
    rw [this]
    exact ⟨rfl, by simp⟩

/-- Witness for C1: a concrete two-record chain (digest = identity function)
verifies; mutating the first atom's action hash breaks it at index 0. -/
theorem C1_record_verify_witness :
    (verifyChain id (recordAll id (TrustChain.mkChain (.str "alice"))
        [(.str "a1", .str "s0", .str "s1", 10), (.str "a2", .str "s1", .str "s2", 20)]).atoms =
      ⟨true, -1, none⟩) ∧
    ((verifyChain id
        ([] ++ { (recordAll id (TrustChain.mkChain (.str "alice"))
            [(.str "a1", .str "s0", .str "s1", 10),
             (.str "a2", .str "s1", .str "s2", 20)]).atoms.headI with
          action := "mutant" } ::
          (recordAll id (TrustChain.mkChain (.str "alice"))
            [(.str "a1", .str "s0", .str "s1", 10),
             (.str "a2", .str "s1", .str "s2", 20)]).atoms.tail)).valid = false ∧
      (verifyChain id
        ([] ++ { (recordAll id (TrustChain.mkChain (.str "alice"))
            [(.str "a1", .str "s0", .str "s1", 10),
             (.str "a2", .str "s1", .str "s2", 20)]).atoms.headI with
          action := "mutant" } ::
          (recordAll id (TrustChain.mkChain (.str "alice"))
            [(.str "a1", .str "s0", .str "s1", 10),
             (.str "a2", .str "s1", .str "s2", 20)]).atoms.tail)).broken_at = ([] : List Atom).length) :=
  ⟨(C1_record_verify id (fun _ _ h => h) (.str "alice")
      [(.str "a1", .str "s0", .str "s1", 10), (.str "a2", .str "s1", .str "s2", 20)]
      (by simp [whensOf, List.chain'_cons])).1,
    (C1_record_verify id (fun _ _ h => h) (.str "alice")
      [(.str "a1", .str "s0", .str "s1", 10), (.str "a2", .str "s1", .str "s2", 20)]
      (by simp [whensOf, List.chain'_cons])).2
      [] _ _ "mutant" (by rfl) (by decide)⟩

/- ---- C10: sealing produces contiguous, disjoint block ranges ---- -/

/-- Appending a block moves the expected next start past its range. -/
theorem expectedNext_concat (b : Block) :
    ∀ (bs : List Block) (s : Int), expectedNext s (bs ++ [b]) = b.atom_range.2 + 1 := by
  intro bs
  induction bs with
  | nil => intro s; rfl
  | cons x t ih => intro s; exact ih (x.atom_range.2 + 1)

/-- The expected next start never decreases along well-formed ranges. -/
theorem rangesOK_le_expectedNext :
    ∀ (bs : List Block) (s : Int), rangesOK s bs → s ≤ expectedNext s bs := by
  intro bs
  induction bs with
  | nil => intro s _; exact le_refl s
  | cons b t ih =>
    intro s h
    obtain ⟨hstart, hle, hrest⟩ := h
    have := ih (b.atom_range.2 + 1) hrest
    simp only [expectedNext]
    omega

/-- Well-formed ranges extend by one block starting exactly at the expected
next index. -/
theorem rangesOK_concat (b : Block) :
    ∀ (bs : List Block) (s : Int), rangesOK s bs →
      b.atom_range.1 = expectedNext s bs → b.atom_range.1 ≤ b.atom_range.2 →
      rangesOK s (bs ++ [b]) := by
  intro bs
  induction bs with
  | nil =>
    intro s _ hstart hle
    exact ⟨hstart, hle, trivial⟩
  | cons x t ih =>
    intro s h hstart hle
    obtain ⟨hxs, hxle, hrest⟩ := h
    exact ⟨hxs, hxle, ih (x.atom_range.2 + 1) hrest hstart hle⟩

/-- Below the expected start, no block of a well-formed list contains the
index. -/
theorem countP_blockContains_zero :
    ∀ (bs : List Block) (s : Int), rangesOK s bs → ∀ i : Int, i < s →
      bs.countP (blockContains i) = 0 := by
  intro bs
  induction bs with
  | nil => intro s _ i _; rfl
  | cons b t ih =>
    intro s h i hi
    obtain ⟨hstart, hle, hrest⟩ := h
    rw [List.countP_cons]
    have hb : blockContains i b = false := by
      simp only [blockContains, Bool.and_eq_false_iff, decide_eq_false_iff_not, not_le]
      left
      omega
    rw [hb]
    show t.countP (blockContains i) + 0 = 0
    rw [Nat.add_zero]
    exact ih (b.atom_range.2 + 1) hrest i (by omega)

/-- Between the expected start and the expected next index, exactly one block
of a well-formed list contains the index. -/
theorem countP_blockContains_one :
    ∀ (bs : List Block) (s : Int), rangesOK s bs →
      ∀ i : Int, s ≤ i → i < expectedNext s bs →
      bs.countP (blockContains i) = 1 := by
  intro bs
  induction bs with
  | nil =>
    intro s _ i hsi hlt
    simp only [expectedNext] at hlt
    omega
  | cons b t ih =>
    intro s h i hsi hlt
    obtain ⟨hstart, hle, hrest⟩ := h
    rw [List.countP_cons]
    by_cases hin : i ≤ b.atom_range.2
    · have hb : blockContains i b = true := by
        simp only [blockContains, Bool.and_eq_true, decide_eq_true_eq]
        omega
      rw [hb, countP_blockContains_zero t (b.atom_range.2 + 1) hrest i (by omega)]
      rfl
    · have hb : blockContains i b = false := by
        simp only [blockContains, Bool.and_eq_false_iff, decide_eq_false_iff_not, not_le]
        right
        omega
      rw [hb]
      show t.countP (blockContains i) + 0 = 1
      rw [Nat.add_zero]
      exact ih (b.atom_range.2 + 1) hrest i (by omega) hlt

/-- `seal` is the identity (returning `null`) whenever every atom is already
covered by a block. -/
theorem seal_noop (H : String → String) (c : TrustChain) (now : Nat)
    (hcov : c._lastSealedIndex = (c.atoms.length : Int) - 1) :
    c.seal H now = (none, c) := by
  unfold TrustChain.seal
  by_cases h1 : c.atoms.length = 0
  · rw [if_pos h1]
  · rw [if_neg h1]
    have hdrop : (c.atoms.drop (c._lastSealedIndex + 1).toNat).length = 0 := by
      rw [List.length_drop]
      omega
    rw [if_pos hdrop]

/-- Every chain operation preserves the sealing invariant. -/
theorem sealInv_applyOp (H : String → String) (c : TrustChain) (op : ChainOp)
    (h : sealInv c) : sealInv (c.applyOp H op) := by
  obtain ⟨hr, he, hlen⟩ := h
  cases op with
  | record action from_ to_ when =>
    refine ⟨hr, he, ?_⟩
    simp only [TrustChain.applyOp, TrustChain.record, TrustChain._lastSealedIndex,
      List.length_append, List.length_cons, List.length_nil] at *
    push_cast
    omega
  | sealOp now =>
    simp only [TrustChain.applyOp, TrustChain.seal]
    by_cases h1 : c.atoms.length = 0
    · rw [if_pos h1]
      exact ⟨hr, he, hlen⟩
    · rw [if_neg h1]
      by_cases h2 : (c.atoms.drop (c._lastSealedIndex + 1).toNat).length = 0
      · rw [if_pos h2]
        exact ⟨hr, he, hlen⟩
      · rw [if_neg h2]
        have hnn : 0 ≤ c._lastSealedIndex + 1 := by
          have := rangesOK_le_expectedNext c.blocks 0 hr
          omega
        have hlt : (c._lastSealedIndex + 1).toNat < c.atoms.length := by
          rw [List.length_drop] at h2
          omega
        have hlt' : c._lastSealedIndex + 1 < (c.atoms.length : Int) := by
          omega
        constructor
        · apply rangesOK_concat _ c.blocks 0 hr
          · rw [he]
          · simp only
            omega
        · constructor
          · rw [expectedNext_concat]
            simp only [TrustChain._lastSealedIndex, List.getLast?_concat]
          · simp only [TrustChain._lastSealedIndex, List.getLast?_concat]
            omega

/-- The sealing invariant holds after any sequence of chain operations. -/
theorem sealInv_run (H : String → String) (ops : List ChainOp) :
    ∀ c : TrustChain, sealInv c → sealInv (TrustChain.run H c ops) := by
  induction ops with
  | nil => intro c h; exact h
  | cons op rest ih =>
    intro c h
    exact ih (c.applyOp H op) (sealInv_applyOp H c op h)

/-- Claim C10: after any sequence of `record` and `seal` calls from a fresh
chain, the blocks' `atom_range` intervals are contiguous and disjoint — the
first block starts at 0 and each block starts right after the previous one's
end; every sealed atom index (one that is at most `_lastSealedIndex`) lies in
exactly one block's range, so `proveAtom` has a unique containing block; and
`seal` returns `null` without appending a block when every atom is already
covered. -/
theorem C10_seal_ranges (H : String → String) (identity : Json) (ops : List ChainOp) :
    rangesOK 0 (TrustChain.run H (TrustChain.mkChain identity) ops).blocks ∧
    (∀ i : Int, 0 ≤ i →
      i ≤ (TrustChain.run H (TrustChain.mkChain identity) ops)._lastSealedIndex →
      (TrustChain.run H (TrustChain.mkChain identity) ops).blocks.countP
        (blockContains i) = 1) ∧
    (∀ now : Nat,
      (TrustChain.run H (TrustChain.mkChain identity) ops)._lastSealedIndex =
        ((TrustChain.run H (TrustChain.mkChain identity) ops).atoms.length : Int) - 1 →
      (TrustChain.run H (TrustChain.mkChain identity) ops).seal H now =
        (none, TrustChain.run H (TrustChain.mkChain identity) ops)) := by
  have hinv : sealInv (TrustChain.run H (TrustChain.mkChain identity) ops) := by
    apply sealInv_run H ops
    exact ⟨trivial, rfl, by simp [TrustChain.mkChain, TrustChain._lastSealedIndex]⟩
  obtain ⟨hr, he, hlen⟩ := hinv
  refine ⟨hr, ?_, ?_⟩
  · intro i h0 hle
    apply countP_blockContains_one _ 0 hr i h0
    omega
  · intro now hcov
    exact seal_noop H _ now hcov

/-- Witness for C10: one record followed by one seal yields a single block
containing index 0, and a second seal is a no-op. -/
theorem C10_seal_ranges_witness :
    (0 : Int) ≤ 0 ∧
    (TrustChain.run id (TrustChain.mkChain (.str "id"))
        [.record (.str "a") (.str "f") (.str "t") 1, .sealOp 2]).blocks.countP
      (blockContains 0) = 1 ∧
    (TrustChain.run id (TrustChain.mkChain (.str "id"))
        [.record (.str "a") (.str "f") (.str "t") 1, .sealOp 2]).seal id 7 =
      (none, TrustChain.run id (TrustChain.mkChain (.str "id"))
        [.record (.str "a") (.str "f") (.str "t") 1, .sealOp 2]) :=
  ⟨le_refl 0,
    (C10_seal_ranges id (.str "id")
        [.record (.str "a") (.str "f") (.str "t") 1, .sealOp 2]).2.1 0
      (by decide) (by decide),
    (C10_seal_ranges id (.str "id")
        [.record (.str "a") (.str "f") (.str "t") 1, .sealOp 2]).2.2 7 (by decide)⟩

/- ---- C2: Merkle inclusion proofs verify ---- -/

/-- Digesting a string value is digesting the string. -/
theorem hash_str (H : String → String) (s : String) : hash H (.str s) = H s := rfl

/-- One pairing pass halves the layer length, rounding up. -/
theorem pairStep_length (H : String → String) :
    ∀ l : List String, (pairStep H l).length = (l.length + 1) / 2 := by
  intro l
  induction l using pairStep.induct H with
  | case1 => simp [pairStep]
  | case2 _ => simp [pairStep]
  | case3 x y rest ih => simp only [pairStep, List.length_cons, ih]; omega

/-- The node at `idx / 2` of a paired layer is the digest of the pair at
`idx`, with an unpaired trailing node self-paired. -/
theorem pairStep_getD (H : String → String) :
    ∀ (l : List String) (idx : Nat), idx < l.length →
      (pairStep H l).getD (idx / 2) "" =
        (if idx % 2 = 1 then H (l.getD (idx - 1) "" ++ l.getD idx "")
         else if idx + 1 < l.length then H (l.getD idx "" ++ l.getD (idx + 1) "")
         else H (l.getD idx "" ++ l.getD idx "")) := by
  intro l
  induction l using pairStep.induct H with
  | case1 => intro idx hidx; simp at hidx
  | case2 a =>
    intro idx hidx
    have h0 : idx = 0 := by simpa using hidx
    subst h0
    simp [pairStep, hash_str]
  | case3 a b rest ih =>
    intro idx hidx
    match idx with
    | 0 =>
      rw [if_neg (by omega), if_pos (by simp)]
      simp [pairStep, hash_str]
    | 1 =>
      rw [if_pos (by omega)]
      simp [pairStep, hash_str]
    | n + 2 =>
      have hn : n < rest.length := by
        simp only [List.length_cons] at hidx
        omega
      have hdiv : (n + 2) / 2 = n / 2 + 1 := by omega
      simp only [pairStep]
      rw [hdiv, List.getD_cons_succ, ih n hn]
      by_cases hm : n % 2 = 1
      · obtain ⟨m, rfl⟩ : ∃ m, n = m + 1 := ⟨n - 1, by omega⟩
        rw [if_pos hm, if_pos (by omega : (m + 1 + 2) % 2 = 1)]
        rfl
      · rw [if_neg hm, if_neg (by omega : ¬ (n + 2) % 2 = 1)]
        by_cases hlt : n + 1 < rest.length
        · rw [if_pos hlt, if_pos (by simp only [List.length_cons]; omega)]
          rfl
        · rw [if_neg hlt, if_neg (by simp only [List.length_cons]; omega)]
          rfl

/-- Folding one proof step from the node at `idx` lands on the paired layer's
node at `idx / 2`. -/
theorem proofFold_stepAt (H : String → String) (cur : List String) (idx : Nat)
    (hidx : idx < cur.length) :
    proofFold H (cur.getD idx "") (proofStepAt cur idx) =
      (pairStep H cur).getD (idx / 2) "" := by
  rw [pairStep_getD H cur idx hidx]
  by_cases hodd : idx % 2 = 1
  · have hbeq : (idx % 2 == 1) = true := by simp [hodd]
    have hsib : idx - 1 < cur.length := by omega
    have hstep : proofStepAt cur idx = ⟨cur.getD (idx - 1) "", "left"⟩ := by
      simp [proofStepAt, hbeq, hsib]
    rw [hstep, if_pos hodd]
    simp [proofFold, hash_str]
  · have hbeq : (idx % 2 == 1) = false := by simp [hodd]
    rw [if_neg hodd]
    by_cases hlt : idx + 1 < cur.length
    · have hstep : proofStepAt cur idx = ⟨cur.getD (idx + 1) "", "right"⟩ := by
        simp [proofStepAt, hbeq, hlt]
      rw [hstep, if_pos hlt]
      simp [proofFold, hash_str]
    · have hstep : proofStepAt cur idx = ⟨cur.getD idx "", "right"⟩ := by
        simp [proofStepAt, hbeq, hlt]
      rw [hstep, if_neg hlt]
      simp [proofFold, hash_str]

/-- Unfolding `buildLayers` at a terminal layer. -/
theorem buildLayers_le_one (H : String → String) (l : List String)
    (h : l.length ≤ 1) : buildLayers H l = [l] := by
  rw [buildLayers]
  exact if_pos h

/-- Unfolding `buildLayers` at a layer that still pairs. -/
theorem buildLayers_ge_two (H : String → String) (l : List String)
    (h : 2 ≤ l.length) : buildLayers H l = l :: buildLayers H (pairStep H l) := by
  rw [buildLayers]
  exact if_neg (by omega)

/-- The layer list is never empty. -/
theorem buildLayers_ne_nil (H : String → String) (l : List String) :
    buildLayers H l ≠ [] := by
  by_cases h : l.length ≤ 1
  · rw [buildLayers_le_one H l h]
    simp
  · rw [buildLayers_ge_two H l (by omega)]
    simp

/-- The root is invariant under one pairing pass. -/
theorem buildRoot_pairStep (H : String → String) (a b : String) (rest : List String) :
    buildRoot H (a :: b :: rest) = buildRoot H (pairStep H (a :: b :: rest)) := by
  rw [buildRoot]

/-- Key induction for C2: from any layer, folding the emitted proof steps
from the node at `idx` reaches the root. -/
theorem merkle_fold (H : String → String) :
    ∀ (n : Nat) (cur : List String), cur.length ≤ n → ∀ idx, idx < cur.length →
      (getMerkleProof (buildLayers H cur) idx).foldl (proofFold H) (cur.getD idx "") =
        buildRoot H cur := by
  intro n
  induction n with
  | zero => intro cur h idx hidx; omega
  | succ n ih =>
    intro cur hlen idx hidx
    by_cases hle : cur.length ≤ 1
    · have h1 : cur.length = 1 := by omega
      obtain ⟨a, rfl⟩ : ∃ a, cur = [a] := by
        match cur, h1 with
        | [a], _ => exact ⟨a, rfl⟩
      have h0 : idx = 0 := by simpa using hidx
      subst h0
      rw [buildLayers_le_one H [a] (by simp)]
      simp only [getMerkleProof, List.foldl_nil]
      rw [buildRoot]
      rfl
    · have h2 : 2 ≤ cur.length := by omega
      rw [buildLayers_ge_two H cur h2]
      obtain ⟨r₁, r₂, hr⟩ := List.exists_cons_of_ne_nil (buildLayers_ne_nil H (pairStep H cur))
      rw [hr]
      simp only [getMerkleProof, List.foldl_cons]
      rw [proofFold_stepAt H cur idx hidx, ← hr]
      have hplen : (pairStep H cur).length ≤ n := by
        rw [pairStep_length]
        omega
      have hpidx : idx / 2 < (pairStep H cur).length := by
        rw [pairStep_length]
        omega
      rw [ih (pairStep H cur) hplen (idx / 2) hpidx]
      match cur, h2 with
      | a :: b :: rest, _ => exact (buildRoot_pairStep H a b rest).symm

/-- Claim C2: for every non-empty list of leaf hashes and every in-range
index, the Merkle proof generated from the built tree's layers verifies the
leaf against the tree's root — including odd-length layers, where the last
node is paired with itself during build and the proof emits the node itself
as the sibling. -/
theorem C2_merkle_roundtrip (H : String → String) (L : List String) (i : Nat)
    (hne : L ≠ []) (hi : i < L.length) :
    verifyMerkleProof H (L.getD i "")
      (getMerkleProof (buildMerkleTree H L).layers i)
      (buildMerkleTree H L).root = true := by
  match L, hne with
  | [p], _ =>
    have h0 : i = 0 := by simpa using hi
    subst h0
    simp [verifyMerkleProof, buildMerkleTree, getMerkleProof]
  | a :: b :: rest, _ =>
    show verifyMerkleProof H ((a :: b :: rest).getD i "")
      (getMerkleProof (buildLayers H (a :: b :: rest)) i)
      (buildRoot H (a :: b :: rest)) = true
    unfold verifyMerkleProof
    rw [merkle_fold H (a :: b :: rest).length (a :: b :: rest) (le_refl _) i hi]
    simp

/-- Witness for C2: a concrete five-leaf tree (odd layers) with the digest
modelled by the identity function; leaf 4 exercises the self-pair rule. -/
theorem C2_merkle_roundtrip_witness :
    verifyMerkleProof id (["a", "b", "c", "d", "e"].getD 4 "")
      (getMerkleProof (buildMerkleTree id ["a", "b", "c", "d", "e"]).layers 4)
      (buildMerkleTree id ["a", "b", "c", "d", "e"]).root = true :=
  C2_merkle_roundtrip id ["a", "b", "c", "d", "e"] 4 (by decide) (by decide)

/- ---- C4: object hashing and key order ---- -/

/-- The character-list comparison is total. -/
theorem chListLe_total : ∀ x y : List Char, chListLe x y = true ∨ chListLe y x = true := by
  intro x
  induction x with
  | nil => intro y; left; rfl
  | cons a as ih =>
    intro y
    cases y with
    | nil => right; rfl
    | cons b bs =>
      simp only [chListLe, Bool.or_eq_true, Bool.and_eq_true, decide_eq_true_eq, beq_iff_eq]
      rcases Nat.lt_trichotomy a.toNat b.toNat with h | h | h
      · left; left; exact h
      · rcases ih bs with h' | h'
        · left; right; exact ⟨h, h'⟩
        · right; right; exact ⟨h.symm, h'⟩
      · right; left; exact h

/-- The character-list comparison is transitive. -/
theorem chListLe_trans : ∀ x y z : List Char,
    chListLe x y = true → chListLe y z = true → chListLe x z = true := by
  intro x
  induction x with
  | nil => intro y z _ _; rfl
  | cons a as ih =>
    intro y z hxy hyz
    cases y with
    | nil => simp [chListLe] at hxy
    | cons b bs =>
      cases z with
      | nil => simp [chListLe] at hyz
      | cons c cs =>
        simp only [chListLe, Bool.or_eq_true, Bool.and_eq_true, decide_eq_true_eq,
          beq_iff_eq] at hxy hyz ⊢
        rcases hxy with h1 | ⟨h1, h1'⟩
        · rcases hyz with h2 | ⟨h2, _⟩
          · left; omega
          · left; omega
        · rcases hyz with h2 | ⟨h2, h2'⟩
          · left; omega
          · right; exact ⟨by omega, ih bs cs h1' h2'⟩

/-- The character-list comparison is antisymmetric. -/
theorem chListLe_antisymm : ∀ x y : List Char,
    chListLe x y = true → chListLe y x = true → x = y := by
  intro x
  induction x with
  | nil =>
    intro y _ hyx
    cases y with
    | nil => rfl
    | cons b bs => simp [chListLe] at hyx
  | cons a as ih =>
    intro y hxy hyx
    cases y with
    | nil => simp [chListLe] at hxy
    | cons b bs =>
      simp only [chListLe, Bool.or_eq_true, Bool.and_eq_true, decide_eq_true_eq,
        beq_iff_eq] at hxy hyx
      have hab : a.toNat = b.toNat := by
        rcases hxy with h1 | ⟨h1, _⟩ <;> rcases hyx with h2 | ⟨h2, _⟩ <;> omega
      have hchar : a = b := by
        have ha := Char.ofNat_toNat a
        have hb := Char.ofNat_toNat b
        rw [← ha, ← hb, hab]
      subst hchar
      have htail : as = bs := by
        apply ih bs
        · rcases hxy with h1 | ⟨_, h1'⟩
          · omega
          · exact h1'
        · rcases hyx with h2 | ⟨_, h2'⟩
          · omega
          · exact h2'
      rw [htail]

/-- Sorting is determined by the multiset of keys: permuted key lists sort to
the same list. -/
theorem sortStrings_perm_eq (ks ks' : List String) (hperm : ks.Perm ks') :
    sortStrings ks = sortStrings ks' := by
  have hT : IsTotal String (fun a b => strLe a b = true) :=
    ⟨fun a b => chListLe_total a.data b.data⟩
  have hTr : IsTrans String (fun a b => strLe a b = true) :=
    ⟨fun a b c => chListLe_trans a.data b.data c.data⟩
  have hA : IsAntisymm String (fun a b => strLe a b = true) :=
    ⟨fun a b h₁ h₂ => String.ext (chListLe_antisymm a.data b.data h₁ h₂)⟩
  exact List.eq_of_perm_of_sorted
    ((List.perm_insertionSort _ ks).trans (hperm.trans (List.perm_insertionSort _ ks').symm))
    (List.sorted_insertionSort _ ks) (List.sorted_insertionSort _ ks')

/-- The executable key-distinctness test agrees with `List.Nodup`. -/
theorem nodupKeys_iff (l : List String) : nodupKeys l = true ↔ l.Nodup := by
  induction l with
  | nil => simp [nodupKeys]
  | cons k t ih =>
    simp only [nodupKeys, Bool.and_eq_true, Bool.not_eq_true', List.nodup_cons, ← ih]
    constructor
    · rintro ⟨h1, h2⟩
      refine ⟨fun hm => ?_, h2⟩
      have h1' : List.elem k t = false := h1
      rw [List.elem_iff.mpr hm] at h1'
      cases h1'
    · rintro ⟨h1, h2⟩
      refine ⟨?_, h2⟩
      cases hc : t.contains k
      · rfl
      · exact absurd (List.elem_iff.mp hc) h1

/-- Lookup in the stringified entries is the stringified lookup. -/
theorem lookupA_stringifyREntries (K : List String) (k : String) :
    ∀ fs : List (String × Json),
      lookupA k (stringifyREntries K fs) = (lookupA k fs).map (stringifyR K) := by
  intro fs
  induction fs with
  | nil => rfl
  | cons p t ih =>
    obtain ⟨k', v⟩ := p
    simp only [stringifyREntries, lookupA]
    by_cases h : k = k'
    · rw [if_pos h, if_pos h]
      rfl
    · rw [if_neg h, if_neg h]
      exact ih

/-- Lookup in the canonically stringified entries is the canonically
stringified lookup. -/
theorem lookupA_sortedStringifyEntries (k : String) :
    ∀ fs : List (String × Json),
      lookupA k (sortedStringifyEntries fs) = (lookupA k fs).map sortedStringify := by
  intro fs
  induction fs with
  | nil => rfl
  | cons p t ih =>
    obtain ⟨k', v⟩ := p
    simp only [sortedStringifyEntries, lookupA]
    by_cases h : k = k'
    · rw [if_pos h, if_pos h]
      rfl
    · rw [if_neg h, if_neg h]
      exact ih

/-- A successful lookup is a membership. -/
theorem lookupA_mem {β : Type} (k : String) (v : β) :
    ∀ l : List (String × β), lookupA k l = some v → (k, v) ∈ l := by
  intro l
  induction l with
  | nil => intro h; simp [lookupA] at h
  | cons p t ih =>
    obtain ⟨k', v'⟩ := p
    intro h
    simp only [lookupA] at h
    by_cases hk : k = k'
    · rw [if_pos hk] at h
      cases h
      subst hk
      exact List.mem_cons_self _ _
    · rw [if_neg hk] at h
      exact List.mem_cons_of_mem _ (ih h)

/-- With distinct keys, lookup only sees the set of entries: it is invariant
under permutation. -/
theorem lookupA_perm (fs hs : List (String × Json)) (hperm : fs.Perm hs)
    (hnd : (keysOf fs).Nodup) : ∀ k, lookupA k fs = lookupA k hs := by
  induction hperm with
  | nil => intro k; rfl
  | cons x hp ih =>
    intro k
    obtain ⟨kx, vx⟩ := x
    simp only [lookupA]
    by_cases hk : k = kx
    · rw [if_pos hk, if_pos hk]
    · rw [if_neg hk, if_neg hk]
      exact ih (by simpa [keysOf] using (List.nodup_cons.mp (by simpa [keysOf] using hnd)).2) k
  | swap x y l =>
    intro k
    obtain ⟨kx, vx⟩ := x
    obtain ⟨ky, vy⟩ := y
    have hxy : ky ≠ kx := by
      simp only [keysOf, List.map_cons, List.nodup_cons, List.mem_cons] at hnd
      exact fun h => hnd.1 (Or.inl h)
    simp only [lookupA]
    by_cases hky : k = ky
    · rw [if_pos hky, if_neg (by rw [hky]; exact hxy), if_pos hky]
    · by_cases hkx : k = kx
      · rw [if_neg hky, if_pos hkx, if_pos hkx]
      · rw [if_neg hky, if_neg hkx, if_neg hkx, if_neg hky]
  | trans h₁ h₂ ih₁ ih₂ =>
    intro k
    rw [ih₁ hnd k]
    apply ih₂ _ k
    have : (keysOf _).Perm (keysOf _) := h₁.map Prod.fst
    exact (this.nodup_iff).mp hnd

/-- Every value of a well-formed field list is well-formed. -/
theorem wfEntries_mem (k : String) (v : Json) :
    ∀ fs : List (String × Json), wfEntries fs = true → (k, v) ∈ fs → wfJson v = true := by
  intro fs
  induction fs with
  | nil => intro _ h; simp at h
  | cons p t ih =>
    obtain ⟨k', v'⟩ := p
    intro hwf hmem
    simp only [wfEntries, Bool.and_eq_true] at hwf
    rcases List.mem_cons.mp hmem with h | h
    · cases h
      exact hwf.1
    · exact ih hwf.2 h

/-- Pointwise deep-permuted entry lists have identical keys. -/
theorem deepPermEntries_keys :
    ∀ hs gs : List (String × Json), DeepPermEntries hs gs → keysOf hs = keysOf gs := by
  intro hs
  induction hs with
  | nil => intro gs h; cases h; rfl
  | cons p t ih =>
    intro gs h
    cases h with
    | cons k v v' t t' hd he =>
      have htail := ih t' he
      simp only [keysOf, List.map_cons] at htail ⊢
      rw [htail]

/-- Lookup relates pointwise across deep-permuted entry lists. -/
theorem deepPermEntries_lookup :
    ∀ hs gs : List (String × Json), DeepPermEntries hs gs → ∀ k : String,
      (lookupA k hs = none ∧ lookupA k gs = none) ∨
      ∃ v v', lookupA k hs = some v ∧ lookupA k gs = some v' ∧
        DeepPerm v v' ∧ (k, v) ∈ hs := by
  intro hs
  induction hs with
  | nil =>
    intro gs h k
    cases h
    left
    exact ⟨rfl, rfl⟩
  | cons p t ih =>
    intro gs h k
    cases h with
    | cons k' v v' t t' hd he =>
      by_cases hk : k = k'
      · right
        refine ⟨v, v', ?_, ?_, hd, ?_⟩
        · simp [lookupA, hk]
        · simp [lookupA, hk]
        · rw [hk]; exact List.mem_cons_self _ _
      · rcases ih t' he k with ⟨h1, h2⟩ | ⟨w, w', h1, h2, hw, hmem⟩
        · left
          constructor
          · simpa [lookupA, hk] using h1
          · simpa [lookupA, hk] using h2
        · right
          refine ⟨w, w', ?_, ?_, hw, List.mem_cons_of_mem _ hmem⟩
          · simpa [lookupA, hk] using h1
          · simpa [lookupA, hk] using h2

/-- The replacer-based serialisation is invariant under deep key
permutation of well-formed values, for any fixed replacer list. -/
theorem stringifyR_deepPerm (K : List String) :
    ∀ (n : Nat) (j j' : Json), sizeOf j ≤ n → wfJson j = true → DeepPerm j j' →
      stringifyR K j = stringifyR K j' := by
  intro n
  induction n with
  | zero =>
    intro j j' hsz _ _
    exfalso
    cases j <;> simp at hsz
  | succ n ih =>
    intro j j' hsz hwf hdp
    cases hdp with
    | null => rfl
    | bool b => rfl
    | num m => rfl
    | str s => rfl
    | obj fs hs gs hperm hentries =>
      simp only [wfJson, Bool.and_eq_true] at hwf
      obtain ⟨hnd, hwfe⟩ := hwf
      have hndk : (keysOf fs).Nodup := (nodupKeys_iff _).mp hnd
      simp only [stringifyR]
      suffices h : K.filterMap (fun k =>
          (lookupA k (stringifyREntries K fs)).map
            (fun vs => jsonQuote k ++ ":" ++ vs)) =
          K.filterMap (fun k =>
          (lookupA k (stringifyREntries K gs)).map
            (fun vs => jsonQuote k ++ ":" ++ vs)) by
        rw [h]
      apply List.filterMap_congr
      intro k _
      rw [lookupA_stringifyREntries, lookupA_stringifyREntries,
        lookupA_perm fs hs hperm hndk k]
      rcases deepPermEntries_lookup hs gs hentries k with ⟨h1, h2⟩ | ⟨v, v', h1, h2, hvv, hmem⟩
      · rw [h1, h2]
      · rw [h1, h2]
        simp only [Option.map_some']
        have hvmem : (k, v) ∈ fs := hperm.symm.subset hmem
        have hszv : sizeOf v ≤ n := by
          have f1 := List.sizeOf_lt_of_mem hvmem
          have f2 : sizeOf (k, v) = 1 + sizeOf k + sizeOf v := Prod.mk.sizeOf_spec k v
          have f3 : sizeOf (Json.obj fs) = 1 + sizeOf fs := by simp
          omega
        rw [ih v v' hszv (wfEntries_mem k v fs hwfe hvmem) hvv]

/-- The hash is invariant under deep key permutation of well-formed values
(part of claim C4). -/
theorem hash_deepPerm (H : String → String) (j j' : Json)
    (hwf : wfJson j = true) (hdp : DeepPerm j j') : hash H j = hash H j' := by
  cases hdp with
  | null => rfl
  | bool b => rfl
  | num m => rfl
  | str s => rfl
  | obj fs hs gs hperm hentries =>
    simp only [hash]
    have h1 : (keysOf fs).Perm (keysOf hs) := hperm.map Prod.fst
    have h2 : keysOf hs = keysOf gs := deepPermEntries_keys hs gs hentries
    have hkeys : sortStrings (keysOf fs) = sortStrings (keysOf gs) := by
      apply sortStrings_perm_eq
      rw [← h2]
      exact h1
    rw [hkeys]
    congr 1
    exact stringifyR_deepPerm _ (sizeOf (Json.obj fs)) _ _ (le_refl _) hwf
      (DeepPerm.obj fs hs gs hperm hentries)

/-- For flat objects (no nested objects among the values), the source's
replacer-based hash input coincides with the spec's keys-sorted canonical
serialisation (part of claim C4). -/
theorem hash_flat_sorted (H : String → String) (fs : List (String × Json))
    (hflat : flatJson (.obj fs) = true) :
    hash H (.obj fs) = H (sortedStringify (.obj fs)) := by
  have h : List.filterMap (fun k => Option.map (fun vs => jsonQuote k ++ ":" ++ vs)
      (lookupA k (stringifyREntries (sortStrings (keysOf fs)) fs)))
      (sortStrings (keysOf fs)) =
    List.filterMap (fun k => Option.map (fun vs => jsonQuote k ++ ":" ++ vs)
      (lookupA k (sortedStringifyEntries fs))) (sortStrings (keysOf fs)) := by
    apply List.filterMap_congr
    intro k _
    rw [lookupA_stringifyREntries, lookupA_sortedStringifyEntries]
    cases hv : lookupA k fs with
    | none => rfl
    | some v =>
      simp only [Option.map_some']
      have hmem := lookupA_mem k v fs hv
      simp only [flatJson, List.all_eq_true] at hflat
      have hatom := hflat (k, v) hmem
      cases v with
      | obj gs => simp at hatom
      | null => rfl
      | bool b => rfl
      | num m => rfl
      | str s => rfl
  simp only [hash, sortedStringify, stringifyR]
  rw [h]

/-- Claim C4 counterexample: for `o = {a: {b: 1}}` the replacer
`Object.keys(o).sort() = ["a"]` filters nested objects too, so the nested
key `b` is DROPPED from the serialisation: the hash input is `{"a":{}}`,
not the keys-sorted serialisation `{"a":{"b":1}}` of `o` (digest modelled by
the identity function). -/
theorem C4_counterexample :
    hash id (Json.obj [("a", Json.obj [("b", Json.num 1)])]) ≠
      id (sortedStringify (Json.obj [("a", Json.obj [("b", Json.num 1)])])) := by
  decide

/-- Claim C4 (amended): `hash(o)` is the digest of `o`'s JSON serialisation
filtered and ordered AT EVERY DEPTH by the lexicographically sorted
top-level key list — which for objects without nested objects coincides with
the keys-sorted serialisation — and consequently `hash(o) = hash(o')`
whenever `o'` permutes `o`'s keys at any nesting depth (duplicate-free keys,
as JavaScript objects guarantee). -/
theorem C4_hash_key_order :
    (∀ (H : String → String) (fs : List (String × Json)), flatJson (.obj fs) = true →
      hash H (.obj fs) = H (sortedStringify (.obj fs))) ∧
    (∀ (H : String → String) (j j' : Json), wfJson j = true → DeepPerm j j' →
      hash H j = hash H j') :=
  ⟨hash_flat_sorted, hash_deepPerm⟩

/-- Witness for C4: a concrete flat object hashes to its keys-sorted
serialisation, and a concrete nested object hashes equally to its deep key
permutation. -/
theorem C4_hash_key_order_witness :
    (flatJson (Json.obj [("b", Json.num 2), ("a", .str "x")]) = true ∧
      hash id (Json.obj [("b", Json.num 2), ("a", .str "x")]) =
        id (sortedStringify (Json.obj [("b", Json.num 2), ("a", .str "x")]))) ∧
    (wfJson (Json.obj [("b", Json.num 1), ("a", Json.obj [("d", Json.num 2), ("c", Json.num 3)])]) = true ∧
      hash id (Json.obj [("b", Json.num 1), ("a", Json.obj [("d", Json.num 2), ("c", Json.num 3)])]) =
        hash id (Json.obj [("a", Json.obj [("c", Json.num 3), ("d", Json.num 2)]), ("b", Json.num 1)])) :=
  ⟨⟨by decide, C4_hash_key_order.1 id [("b", Json.num 2), ("a", .str "x")] (by decide)⟩,
   ⟨by decide,
    C4_hash_key_order.2 id
      (Json.obj [("b", Json.num 1), ("a", Json.obj [("d", Json.num 2), ("c", Json.num 3)])])
      (Json.obj [("a", Json.obj [("c", Json.num 3), ("d", Json.num 2)]), ("b", Json.num 1)])
      (by decide)
      (DeepPerm.obj
        [("b", Json.num 1), ("a", Json.obj [("d", Json.num 2), ("c", Json.num 3)])]
        [("a", Json.obj [("d", Json.num 2), ("c", Json.num 3)]), ("b", Json.num 1)]
        [("a", Json.obj [("c", Json.num 3), ("d", Json.num 2)]), ("b", Json.num 1)]
        (List.Perm.swap ("a", Json.obj [("d", Json.num 2), ("c", Json.num 3)]) ("b", Json.num 1) [])
        (DeepPermEntries.cons "a"
          (Json.obj [("d", Json.num 2), ("c", Json.num 3)]) (Json.obj [("c", Json.num 3), ("d", Json.num 2)])
          [("b", Json.num 1)] [("b", Json.num 1)]
          (DeepPerm.obj
            [("d", Json.num 2), ("c", Json.num 3)]
            [("c", Json.num 3), ("d", Json.num 2)]
            [("c", Json.num 3), ("d", Json.num 2)]
            (List.Perm.swap ("c", Json.num 3) ("d", Json.num 2) [])
            (DeepPermEntries.cons "c" (Json.num 3) (Json.num 3) [("d", Json.num 2)] [("d", Json.num 2)]
              (DeepPerm.num 3)
              (DeepPermEntries.cons "d" (Json.num 2) (Json.num 2) [] []
                (DeepPerm.num 2) DeepPermEntries.nil)))
          (DeepPermEntries.cons "b" (Json.num 1) (Json.num 1) [] []
            (DeepPerm.num 1) DeepPermEntries.nil)))⟩⟩

end Forge
